import Mathlib

/-!
# ADS_set: a hash set with separate chaining

A shallow embedding of `ADS_set.h`.

* A chain of `element` nodes hanging off `first_element` is the list of its keys
  in link order; a node pointer is the address of a node: the bucket it lives in
  and its position in that bucket's chain. `nullptr` is `none`.
* The bucket array `table` is a list of `linked_list` values. Reading a bucket
  outside the array is undefined in the source; here such a read yields an empty
  bucket and such a write is dropped. Well-formed states never do either.
* `size_type` values are natural numbers (counters of allocated nodes and
  buckets, no wrap-around). `std::numeric_limits<size_type>::max()`, which the
  source reserves for "no bucket", is `none`: it is never a bucket index.
* `key_equal` is equality on `Key`; `hasher` is an arbitrary total function
  `Key → Nat`, passed as a parameter.
-/

namespace ADS_set

/-- A `linked_list`: the keys of the nodes reachable from `first_element`, in link
order, and the stored node count `sz`. -/
structure linked_list (Key : Type) where
  chain : List Key
  sz : Nat
deriving DecidableEq, Repr

namespace linked_list

variable {Key : Type} [DecidableEq Key]

/-- A default-constructed `linked_list`: `first_element = nullptr`, `sz = 0`. -/
def empty : linked_list Key := ⟨[], 0⟩

instance : Inhabited (linked_list Key) := ⟨empty⟩

/-- Source `linked_list::clear`: release every node, reset the count. -/
def clear (_l : linked_list Key) : linked_list Key := ⟨[], 0⟩

/-- Source `linked_list::add`: the new node becomes `first_element`; `++sz`. -/
def add (l : linked_list Key) (key : Key) : linked_list Key :=
  ⟨key :: l.chain, l.sz + 1⟩

/-- The loop of `linked_list::erase` on the chain starting at `current`: `none`
when no node matches, otherwise the chain with the first matching node unlinked. -/
def eraseLoop (key : Key) : List Key → Option (List Key)
  | [] => none
  | cur :: next =>
    if ¬ (key = cur) then (eraseLoop key next).map (fun rest => cur :: rest)
    else some next

/-- Source `linked_list::erase`: unlink the first node holding `key` and decrement `sz`;
the flag tells whether a node was removed. -/
def erase (l : linked_list Key) (key : Key) : linked_list Key × Bool :=
  match eraseLoop key l.chain with
  | none => (l, false)
  | some c => (⟨c, l.sz - 1⟩, true)

/-- The loop of `linked_list::contains` from the node at position `pos`. -/
def containsLoop (key : Key) : List Key → Nat → Option Nat
  | [], _ => none
  | cur :: next, pos => if cur = key then some pos else containsLoop key next (pos + 1)

/-- Source `linked_list::contains`: the position of the first node holding `key`, or
`none` for `nullptr`. -/
def contains (l : linked_list Key) (key : Key) : Option Nat :=
  containsLoop key l.chain 0

end linked_list

end ADS_set

/-- The container state: the bucket array, `max_load_factor`, `sz` and `max_sz`. -/
structure ADS_set (Key : Type) where
  table : List (ADS_set.linked_list Key)
  max_load_factor : Nat
  sz : Nat
  max_sz : Nat
deriving DecidableEq, Repr

namespace ADS_set

/-- An `Iterator` into a given container: `linkedListIndex_` (`none` is
`numeric_limits<size_type>::max()`) and `element_`, the address (bucket,
position) of a node, `none` for `nullptr`. The container `adsSet_` is the
state the iterator functions are applied to. -/
structure Iterator where
  linkedListIndex_ : Option Nat
  element_ : Option (Nat × Nat)
deriving DecidableEq, Repr

variable {Key : Type} [DecidableEq Key]

/-- Read of `table[i]`. -/
def bucket (s : ADS_set Key) (i : Nat) : linked_list Key :=
  s.table.getD i linked_list.empty

/-- The default constructor with template parameter `N`: `N` empty buckets. -/
def new (N : Nat) : ADS_set Key :=
  { table := List.replicate N linked_list.empty, max_load_factor := 70, sz := 0, max_sz := N }

/-- Source `hash`: `hasher{}(key) % max_sz`. -/
def hash (hasher : Key → Nat) (s : ADS_set Key) (key : Key) : Nat :=
  hasher key % s.max_sz

/-- Source `isOverloaded`: `100 * sz / max_sz > max_load_factor`. -/
def isOverloaded (s : ADS_set Key) : Bool :=
  decide (100 * s.sz / s.max_sz > s.max_load_factor)

/-- One pass of the inner `while` of `rehash`: every key of an old chain, in
chain order, is added to bucket `hasher key % n` of the new table. -/
def rehashChain (hasher : Key → Nat) (n : Nat) (newTable : List (linked_list Key))
    (chain : List Key) : List (linked_list Key) :=
  chain.foldl (fun nt key =>
    nt.set (hasher key % n) ((nt.getD (hasher key % n) linked_list.empty).add key)) newTable

/-- Source `rehash(n)`: `n` fresh buckets, `max_sz = n`, then the old buckets
`0 .. oldSize - 1` are walked in index order. -/
def rehash (hasher : Key → Nat) (s : ADS_set Key) (n : Nat) : ADS_set Key :=
  let newTable : List (linked_list Key) := List.replicate n linked_list.empty
  let oldSize := s.max_sz
  { s with
    table := (List.range oldSize).foldl
      (fun nt i => rehashChain hasher n nt (bucket s i).chain) newTable
    max_sz := n }

/-- The `for` loop of `findNextNonEmptyLinkedList` with `fuel` iterations left,
standing at index `i`. -/
def findNextLoop (s : ADS_set Key) : Nat → Nat → Option Nat
  | 0, _ => none
  | fuel + 1, i => if (bucket s i).sz > 0 then some i else findNextLoop s fuel (i + 1)

/-- Source `findNextNonEmptyLinkedList(startIndex)`: the loop runs for
`startIndex ≤ i < max_sz`; `none` is `numeric_limits<size_type>::max()`. -/
def findNextNonEmptyLinkedList (s : ADS_set Key) (startIndex : Nat) : Option Nat :=
  findNextLoop s (s.max_sz - startIndex) startIndex

/-- Source `end()`: index `max()`, node `nullptr`. -/
def «end» : Iterator := ⟨none, none⟩

/-- Source `find`: scan bucket `hash(key)`. -/
def find (hasher : Key → Nat) (s : ADS_set Key) (key : Key) : Iterator :=
  let hashIndex := hash hasher s key
  match (bucket s hashIndex).contains key with
  | none => «end»
  | some pos => ⟨some hashIndex, some (hashIndex, pos)⟩

/-- Source `count`: `find(key) != end() ? 1 : 0`. -/
def count (hasher : Key → Nat) (s : ADS_set Key) (key : Key) : Nat :=
  if find hasher s key ≠ «end» then 1 else 0

/-- Source `size()`. -/
def size (s : ADS_set Key) : Nat := s.sz

/-- Source `empty()`. -/
def empty (s : ADS_set Key) : Bool := decide (s.sz = 0)

/-- Source `insertPrivate`. -/
def insertPrivate (hasher : Key → Nat) (s : ADS_set Key) (key : Key) : ADS_set Key × Bool :=
  if find hasher s key ≠ «end» then (s, false)
  else
    let index := hash hasher s key
    let s1 : ADS_set Key :=
      { s with table := s.table.set index ((bucket s index).add key), sz := s.sz + 1 }
    let s2 := if isOverloaded s1 then rehash hasher s1 (s1.max_sz * 2) else s1
    (s2, true)

/-- Source `insert(const key_type&)`: the new state and the returned pair. -/
def insert (hasher : Key → Nat) (s : ADS_set Key) (key : Key) :
    ADS_set Key × (Iterator × Bool) :=
  let it := find hasher s key
  if it ≠ «end» then (s, (it, false))
  else
    let s1 := (insertPrivate hasher s key).1
    (s1, (find hasher s1 key, true))

/-- Source `insert(std::initializer_list)` and `insert(InputIt, InputIt)` over a
sequence of keys: `insertPrivate` on each element in order. -/
def insertList (hasher : Key → Nat) (s : ADS_set Key) (keys : List Key) : ADS_set Key :=
  keys.foldl (fun t key => (insertPrivate hasher t key).1) s

/-- Source `erase(const key_type&)`: the new state and the returned count. -/
def erase (hasher : Key → Nat) (s : ADS_set Key) (key : Key) : ADS_set Key × Nat :=
  if find hasher s key = «end» then (s, 0)
  else
    let hashIndex := hash hasher s key
    ({ s with table := s.table.set hashIndex ((bucket s hashIndex).erase key).1,
              sz := s.sz - 1 }, 1)

/-- Source `clear()`: the loop clears buckets `0 .. max_sz - 1`; `sz = 0`. -/
def clear (s : ADS_set Key) : ADS_set Key :=
  { s with
    table := (List.range s.max_sz).foldl
      (fun t i => t.set i (t.getD i linked_list.empty).clear) s.table
    sz := 0 }

/-- Source `swap(other)`: `table`, `sz` and `max_sz` change places (`max_load_factor`
stays). The pair is (this, other) after the call. -/
def swap (s other : ADS_set Key) : ADS_set Key × ADS_set Key :=
  ({ s with table := other.table, sz := other.sz, max_sz := other.max_sz },
   { other with table := s.table, sz := s.sz, max_sz := s.max_sz })

/-- Source `first_element` of bucket `i` as a node address. -/
def firstElement (s : ADS_set Key) (i : Nat) : Option (Nat × Nat) :=
  match (bucket s i).chain with
  | [] => none
  | _ :: _ => some (i, 0)

/-- Source `begin()`. Indexing the table with `max()` is undefined in the source; it
yields `nullptr` here. -/
def «begin» (s : ADS_set Key) : Iterator :=
  if s.sz = 0 then «end»
  else
    match findNextNonEmptyLinkedList s 0 with
    | none => ⟨none, none⟩
    | some i => ⟨some i, firstElement s i⟩

/-- Source `Iterator::operator*`: the key of the node `element_` points to (`none`
when there is no such node). -/
def deref (s : ADS_set Key) (it : Iterator) : Option Key :=
  match it.element_ with
  | none => none
  | some (b, pos) => (bucket s b).chain[pos]?

/-- Source `Iterator::operator++`, the pre-increment, for an iterator of container `s`.
The node after `element_` is the next position of the chain it lives in. The scan
starts at `linkedListIndex_ + 1`, which is 0 when `linkedListIndex_` is `max()`. -/
def next (s : ADS_set Key) (it : Iterator) : Iterator :=
  match it.element_ with
  | none => it
  | some (b, pos) =>
    if pos + 1 < (bucket s b).chain.length then { it with element_ := some (b, pos + 1) }
    else
      let start :=
        match it.linkedListIndex_ with
        | none => 0
        | some idx => idx + 1
      match findNextNonEmptyLinkedList s start with
      | none => ⟨none, none⟩
      | some j => ⟨some j, firstElement s j⟩

/-- The `while (it != lhs.end())` loop of `operator==` with `fuel` iterations
left; `none` when the fuel runs out or the end sentinel is dereferenced. -/
def eqLoop (hasher : Key → Nat) (lhs rhs : ADS_set Key) : Nat → Iterator → Option Bool
  | 0, _ => none
  | fuel + 1, it =>
    if it ≠ «end» then
      match deref lhs it with
      | none => none
      | some key =>
        if find hasher rhs key = «end» then some false
        else eqLoop hasher lhs rhs fuel (next lhs it)
    else some true

/-- Source `operator==` with a bound on the number of loop iterations. -/
def eq (hasher : Key → Nat) (fuel : Nat) (lhs rhs : ADS_set Key) : Option Bool :=
  if lhs.sz ≠ rhs.sz then some false
  else eqLoop hasher lhs rhs fuel («begin» lhs)

/-- Source `operator!=`: `!(lhs == rhs)`. -/
def ne (hasher : Key → Nat) (fuel : Nat) (lhs rhs : ADS_set Key) : Option Bool :=
  (eq hasher fuel lhs rhs).map (fun b => !b)

/-- The stored keys in traversal order: buckets by index, each chain in link order. -/
def keys (s : ADS_set Key) : List Key :=
  (s.table.map (fun l => l.chain)).flatten

/-- Well-formedness of a state (the invariants of the data model): at least one
bucket, `table` has `max_sz` buckets, `sz` is the sum of the bucket counts, and in
every bucket the count is the number of nodes, no key occurs twice, and every key
hashes to the index of the bucket. -/
def WF (hasher : Key → Nat) (s : ADS_set Key) : Prop :=
  0 < s.max_sz ∧ s.table.length = s.max_sz ∧
  s.sz = (s.table.map (fun l => l.sz)).sum ∧
  ∀ i, i < s.max_sz →
    (bucket s i).sz = (bucket s i).chain.length ∧ (bucket s i).chain.Nodup ∧
    ∀ k ∈ (bucket s i).chain, hasher k % s.max_sz = i

instance (hasher : Key → Nat) (s : ADS_set Key) : Decidable (WF hasher s) := by
  unfold WF; infer_instance

/-- The state inside `insertPrivate` right after `table[index].add(key); ++sz;`
(before the load check). -/
def added (hasher : Key → Nat) (s : ADS_set Key) (key : Key) : ADS_set Key :=
  { s with
    table := s.table.set (hash hasher s key) ((bucket s (hash hasher s key)).add key)
    sz := s.sz + 1 }

/-- Source `insert(InputIt, InputIt)` called with iterators of a container `other`, up to
`other.end()`: the loop `while (beginIt != endIt) insertPrivate(*beginIt++)` with
`fuel` iterations left. `none` when the fuel runs out or a null node is
dereferenced. -/
def insertRange (hasher : Key → Nat) (other : ADS_set Key) :
    Nat → Iterator → ADS_set Key → Option (ADS_set Key)
  | 0, _, _ => none
  | fuel + 1, beginIt, s =>
    if beginIt ≠ «end» then
      match deref other beginIt with
      | none => none
      | some key =>
        insertRange hasher other fuel (next other beginIt) (insertPrivate hasher s key).1
    else some s

/-- The copy constructor `ADS_set(const ADS_set &other)` for template parameter `N`. -/
def copy (hasher : Key → Nat) (N fuel : Nat) (other : ADS_set Key) : Option (ADS_set Key) :=
  insertRange hasher other fuel («begin» other) (new N)

/-- Source `operator=(const ADS_set &other)` for a distinct container `other`: `clear()`,
then `insert(other.begin(), other.end())`. -/
def assign (hasher : Key → Nat) (fuel : Nat) (s other : ADS_set Key) : Option (ADS_set Key) :=
  insertRange hasher other fuel («begin» other) (clear s)

/-- Source `operator=(const ADS_set &other)` when `other` is the container itself:
`other.begin()` is taken after `clear()`, so the range is read from the cleared
container. -/
def assignSelf (hasher : Key → Nat) (fuel : Nat) (s : ADS_set Key) : Option (ADS_set Key) :=
  insertRange hasher (clear s) fuel («begin» (clear s)) (clear s)

/-- Source `operator=(std::initializer_list)`: `clear()`, then `insert(ilist)`. -/
def assignList (hasher : Key → Nat) (s : ADS_set Key) (ilist : List Key) : ADS_set Key :=
  insertList hasher (clear s) ilist

/-- The states a container with template parameter `N` can be in: those obtained
from the default constructor by the public mutating operations. The other operand
of `swap` and the source of a copy or an assignment is a container of the same
type, hence also such a state. -/
inductive Reachable (hasher : Key → Nat) (N : Nat) : ADS_set Key → Prop
  | new : Reachable hasher N (new N)
  | insert {s : ADS_set Key} (key : Key) :
      Reachable hasher N s → Reachable hasher N (insert hasher s key).1
  | insertList {s : ADS_set Key} (keys : List Key) :
      Reachable hasher N s → Reachable hasher N (insertList hasher s keys)
  | insertRange {s other s' : ADS_set Key} (fuel : Nat) :
      Reachable hasher N s → Reachable hasher N other →
      insertRange hasher other fuel («begin» other) s = some s' → Reachable hasher N s'
  | erase {s : ADS_set Key} (key : Key) :
      Reachable hasher N s → Reachable hasher N (erase hasher s key).1
  | clear {s : ADS_set Key} : Reachable hasher N s → Reachable hasher N (clear s)
  | swap_this {s other : ADS_set Key} :
      Reachable hasher N s → Reachable hasher N other → Reachable hasher N (swap s other).1
  | swap_other {s other : ADS_set Key} :
      Reachable hasher N s → Reachable hasher N other → Reachable hasher N (swap s other).2
  | assign {s other s' : ADS_set Key} (fuel : Nat) :
      Reachable hasher N s → Reachable hasher N other →
      assign hasher fuel s other = some s' → Reachable hasher N s'
  | assignSelf {s s' : ADS_set Key} (fuel : Nat) :
      Reachable hasher N s → assignSelf hasher fuel s = some s' → Reachable hasher N s'
  | assignList {s : ADS_set Key} (ilist : List Key) :
      Reachable hasher N s → Reachable hasher N (assignList hasher s ilist)

/-- A call of `insert(key)` or `erase(key)`. -/
inductive Op (Key : Type) where
  | insert (key : Key)
  | erase (key : Key)
deriving DecidableEq, Repr

/-- The state after one call. -/
def step (hasher : Key → Nat) (s : ADS_set Key) : Op Key → ADS_set Key
  | Op.insert key => (insert hasher s key).1
  | Op.erase key => (erase hasher s key).1

/-- The state after a sequence of calls. -/
def run (hasher : Key → Nat) (s : ADS_set Key) (ops : List (Op Key)) : ADS_set Key :=
  ops.foldl (step hasher) s

/-- The mathematical set obtained by replaying a sequence of calls on an abstract
set, starting from the empty set. -/
def replay (ops : List (Op Key)) : Finset Key :=
  ops.foldl (fun A op =>
    match op with
    | Op.insert key => A ∪ {key}
    | Op.erase key => A \ {key}) ∅

/-- The results of dereferencing the cursor at each of the first `n` positions
reached from `it` by repeated `operator++`. -/
def visited (s : ADS_set Key) (it : Iterator) (n : Nat) : List (Option Key) :=
  (List.range n).map (fun j => deref s ((next s)^[j] it))

/-- The load condition that `insertPrivate` maintains, with the state data it
relies on: `max_load_factor` is 70, there is at least one bucket, and
`100 * sz / max_sz` (truncating division) is at most 70. -/
def LoadOk (s : ADS_set Key) : Prop :=
  s.max_load_factor = 70 ∧ 0 < s.max_sz ∧ 100 * s.sz / s.max_sz ≤ 70

/-- The keys stored in buckets `i, i + 1, ...`, in traversal order. -/
def keysFrom (s : ADS_set Key) (i : Nat) : List Key :=
  ((s.table.drop i).map (fun l => l.chain)).flatten

/-- The iterator `it` stands on a node of `s`, and `R` lists the keys from that node
on: the rest of its chain, then the later buckets. -/
def StandsAt (s : ADS_set Key) (it : Iterator) (R : List Key) : Prop :=
  ∃ i p, it = ⟨some i, some (i, p)⟩ ∧ i < s.max_sz ∧ p < (bucket s i).chain.length ∧
    R = (bucket s i).chain.drop p ++ keysFrom s (i + 1)

/-- The iterator `it` has exactly the keys `R` left to visit: it is `end()` when `R`
is empty and stands on the node of the first key of `R` otherwise. -/
def Remaining (s : ADS_set Key) (it : Iterator) (R : List Key) : Prop :=
  (R = [] ∧ it = «end») ∨ (R ≠ [] ∧ StandsAt s it R)

/-- Successive calls of the single-key `insert(key)`, one per element of `keys`, in
order. -/
def insertAll (hasher : Key → Nat) (s : ADS_set Key) (keys : List Key) : ADS_set Key :=
  keys.foldl (fun t key => (insert hasher t key).1) s

/-- The arithmetic of one insertion of a new key at maximal load factor 70, on the
pair (size, capacity): the size goes up by one and the capacity doubles when
`100 * size / capacity` (truncating) then exceeds 70. -/
def growStep (p : Nat × Nat) : Nat × Nat :=
  (p.1 + 1, if 100 * (p.1 + 1) / p.2 > 70 then p.2 * 2 else p.2)

set_option linter.unusedSectionVars false

/-! ## Chains -/

theorem containsLoop_eq_none_iff (key : Key) (l : List Key) (p : Nat) :
    linked_list.containsLoop key l p = none ↔ key ∉ l := by
  induction l generalizing p with
  | nil => simp [linked_list.containsLoop]
  | cons x xs ih =>
    by_cases h : x = key
    · simp [linked_list.containsLoop, h]
    · have h2 : ¬ key = x := fun e => h e.symm
      simp [linked_list.containsLoop, h, h2, ih]

theorem containsLoop_some (key : Key) (l : List Key) (p q : Nat)
    (h : linked_list.containsLoop key l p = some q) :
    p ≤ q ∧ l[q - p]? = some key := by
  induction l generalizing p with
  | nil => simp [linked_list.containsLoop] at h
  | cons x xs ih =>
    by_cases hx : x = key
    · simp [linked_list.containsLoop, hx] at h
      subst h; simp [hx]
    · simp [linked_list.containsLoop, hx] at h
      obtain ⟨h1, h2⟩ := ih (p + 1) h
      refine ⟨by omega, ?_⟩
      have e : q - p = (q - (p + 1)) + 1 := by omega
      rw [e]; simpa using h2

theorem eraseLoop_eq_none_iff (key : Key) (l : List Key) :
    linked_list.eraseLoop key l = none ↔ key ∉ l := by
  induction l with
  | nil => simp [linked_list.eraseLoop]
  | cons x xs ih =>
    by_cases h : key = x
    · simp [linked_list.eraseLoop, h]
    · simp [linked_list.eraseLoop, h, ih]

theorem eraseLoop_some (key : Key) (l c : List Key)
    (h : linked_list.eraseLoop key l = some c) : c = l.erase key := by
  induction l generalizing c with
  | nil => simp [linked_list.eraseLoop] at h
  | cons x xs ih =>
    by_cases hx : key = x
    · simp [linked_list.eraseLoop, hx] at h
      subst h; simp [hx]
    · simp [linked_list.eraseLoop, hx] at h
      obtain ⟨r, hr, rfl⟩ := h
      have hx2 : ¬ x = key := fun e => hx e.symm
      rw [ih r hr, List.erase_cons_tail (by simpa using hx2)]

theorem eraseLoop_of_mem (key : Key) (l : List Key) (h : key ∈ l) :
    linked_list.eraseLoop key l = some (l.erase key) := by
  cases e : linked_list.eraseLoop key l with
  | none => exact absurd h ((eraseLoop_eq_none_iff key l).1 e)
  | some c => rw [eraseLoop_some key l c e]

/-! ## Buckets and `find` -/

theorem bucket_eq_getElem (s : ADS_set Key) (i : Nat) (h : i < s.table.length) :
    bucket s i = s.table[i] := by
  simp [bucket, List.getD_eq_getElem?_getD, List.getElem?_eq_getElem h]

theorem bucket_of_le (s : ADS_set Key) (i : Nat) (h : s.table.length ≤ i) :
    bucket s i = linked_list.empty := by
  simp [bucket, List.getD_eq_getElem?_getD, List.getElem?_eq_none h]

theorem find_ne_end_iff (hasher : Key → Nat) (s : ADS_set Key) (key : Key) :
    find hasher s key ≠ «end» ↔ key ∈ (bucket s (hash hasher s key)).chain := by
  unfold find linked_list.contains
  cases e : linked_list.containsLoop key (bucket s (hash hasher s key)).chain 0 with
  | none =>
    have := (containsLoop_eq_none_iff _ _ _).1 e
    simp [this, e]
  | some pos =>
    have : key ∈ (bucket s (hash hasher s key)).chain := by
      by_contra hc
      rw [(containsLoop_eq_none_iff _ _ 0).2 hc] at e
      cases e
    simp [this, «end», e]

theorem find_eq_end_iff (hasher : Key → Nat) (s : ADS_set Key) (key : Key) :
    find hasher s key = «end» ↔ key ∉ (bucket s (hash hasher s key)).chain := by
  rw [← find_ne_end_iff]; simp

theorem count_eq_one_iff (hasher : Key → Nat) (s : ADS_set Key) (key : Key) :
    count hasher s key = 1 ↔ key ∈ (bucket s (hash hasher s key)).chain := by
  unfold count
  rw [← find_ne_end_iff]
  split <;> simp_all

theorem count_eq_zero_iff (hasher : Key → Nat) (s : ADS_set Key) (key : Key) :
    count hasher s key = 0 ↔ key ∉ (bucket s (hash hasher s key)).chain := by
  unfold count
  rw [← find_ne_end_iff]
  split <;> simp_all

theorem deref_find (hasher : Key → Nat) (s : ADS_set Key) (key : Key)
    (h : find hasher s key ≠ «end») : deref s (find hasher s key) = some key := by
  unfold find linked_list.contains at *
  cases e : linked_list.containsLoop key (bucket s (hash hasher s key)).chain 0 with
  | none => simp [e] at h
  | some pos =>
    have := (containsLoop_some _ _ _ _ e).2
    simpa [deref, e] using this

theorem mem_keys_iff (s : ADS_set Key) (key : Key) :
    key ∈ keys s ↔ ∃ i, i < s.table.length ∧ key ∈ (bucket s i).chain := by
  unfold keys
  rw [List.mem_flatten]
  constructor
  · rintro ⟨l, hl, hk⟩
    obtain ⟨b, hb, rfl⟩ := List.mem_map.1 hl
    obtain ⟨n, hn, rfl⟩ := List.mem_iff_getElem.1 hb
    exact ⟨n, hn, by rw [bucket_eq_getElem s n hn]; exact hk⟩
  · rintro ⟨i, hi, hk⟩
    rw [bucket_eq_getElem s i hi] at hk
    exact ⟨_, List.mem_map.2 ⟨s.table[i], List.getElem_mem _, rfl⟩, hk⟩

theorem WF.mem_keys_iff_bucket {hasher : Key → Nat} {s : ADS_set Key} (wf : WF hasher s) (key : Key) :
    key ∈ keys s ↔ key ∈ (bucket s (hash hasher s key)).chain := by
  obtain ⟨hpos, hlen, _, hb⟩ := wf
  rw [ADS_set.mem_keys_iff]
  constructor
  · rintro ⟨i, hi, hk⟩
    have := (hb i (hlen ▸ hi)).2.2 key hk
    unfold hash; rw [this]; exact hk
  · intro hk
    exact ⟨hash hasher s key, by rw [hlen]; exact Nat.mod_lt _ hpos, hk⟩

theorem WF.count_eq_one_iff_mem {hasher : Key → Nat} {s : ADS_set Key} (wf : WF hasher s)
    (key : Key) : count hasher s key = 1 ↔ key ∈ keys s := by
  rw [wf.mem_keys_iff_bucket, ADS_set.count_eq_one_iff]

/-! ## Writing one bucket -/

theorem getD_set_eq {α : Type} (t : List α) (i : Nat) (x d : α) (h : i < t.length) :
    (t.set i x).getD i d = x := by
  simp [List.getD_eq_getElem?_getD, List.getElem?_set, h]

theorem getD_set_ne {α : Type} (t : List α) (i j : Nat) (x d : α) (h : i ≠ j) :
    (t.set i x).getD j d = t.getD j d := by
  simp [List.getD_eq_getElem?_getD, List.getElem?_set, h]

theorem sum_map_set {α : Type} (f : α → Nat) (t : List α) (i : Nat) (x d : α)
    (h : i < t.length) :
    ((t.set i x).map f).sum + f (t.getD i d) = (t.map f).sum + f x := by
  induction t generalizing i with
  | nil => simp at h
  | cons a t ih =>
    cases i with
    | zero => simp; omega
    | succ i =>
      have := ih i (by simpa using h)
      simp only [List.set_cons_succ, List.map_cons, List.sum_cons, List.getD_cons_succ]
      omega

/-- The state after `table[i] = b` and `sz = sz'`. -/
theorem bucket_set (s : ADS_set Key) (i j sz' : Nat) (b : linked_list Key)
    (h : i < s.table.length) :
    bucket { s with table := s.table.set i b, sz := sz' } j = if j = i then b else bucket s j := by
  unfold bucket
  by_cases e : j = i
  · subst e; simp only [if_true]; exact getD_set_eq _ _ _ _ h
  · simp only [e, if_false]; exact getD_set_ne _ _ _ _ _ (fun h => e h.symm)

theorem wf_set {hasher : Key → Nat} {s : ADS_set Key} (wf : WF hasher s) (i sz' : Nat)
    (b : linked_list Key) (hi : i < s.max_sz) (hsz : b.sz = b.chain.length)
    (hnd : b.chain.Nodup) (hpl : ∀ k ∈ b.chain, hasher k % s.max_sz = i)
    (hsum : sz' + (bucket s i).sz = s.sz + b.sz) :
    WF hasher { s with table := s.table.set i b, sz := sz' } := by
  obtain ⟨hpos, hlen, hs, hb⟩ := wf
  have hi2 : i < s.table.length := hlen ▸ hi
  refine ⟨hpos, by simpa using hlen, ?_, ?_⟩
  · have := sum_map_set (fun l : linked_list Key => l.sz) s.table i b linked_list.empty hi2
    simp only [bucket] at hsum
    simp only at this ⊢
    omega
  · intro j hj
    rw [bucket_set s i j sz' b hi2]
    by_cases e : j = i
    · subst e; simp only [if_true]; exact ⟨hsz, hnd, hpl⟩
    · simp only [e, if_false]; exact hb j hj

theorem keys_length_of_counts (t : List (linked_list Key))
    (h : ∀ l ∈ t, l.sz = l.chain.length) :
    ((t.map (fun l => l.chain)).flatten).length = (t.map (fun l => l.sz)).sum := by
  induction t with
  | nil => simp
  | cons a t ih =>
    have h1 := h a (List.mem_cons_self _ _)
    have h2 := ih (fun l hl => h l (List.mem_cons_of_mem _ hl))
    simp only [List.map_cons, List.flatten_cons, List.length_append, List.sum_cons]
    omega

theorem WF.bucket_mem {hasher : Key → Nat} {s : ADS_set Key} (wf : WF hasher s)
    (l : linked_list Key) (hl : l ∈ s.table) : ∃ i, i < s.max_sz ∧ bucket s i = l := by
  obtain ⟨n, hn, rfl⟩ := List.mem_iff_getElem.1 hl
  exact ⟨n, wf.2.1 ▸ hn, bucket_eq_getElem s n hn⟩

theorem WF.size_eq_length {hasher : Key → Nat} {s : ADS_set Key} (wf : WF hasher s) :
    s.sz = (keys s).length := by
  unfold keys
  rw [keys_length_of_counts, ← wf.2.2.1]
  intro l hl
  obtain ⟨i, hi, rfl⟩ := wf.bucket_mem l hl
  exact (wf.2.2.2 i hi).1

theorem WF.nodup_keys {hasher : Key → Nat} {s : ADS_set Key} (wf : WF hasher s) :
    (keys s).Nodup := by
  unfold keys
  rw [List.nodup_flatten]
  constructor
  · intro c hc
    obtain ⟨l, hl, rfl⟩ := List.mem_map.1 hc
    obtain ⟨i, hi, rfl⟩ := wf.bucket_mem l hl
    exact (wf.2.2.2 i hi).2.1
  · rw [List.pairwise_iff_getElem]
    intro i j hi hj hij a ha1 ha2
    simp only [List.length_map] at hi hj
    simp only [List.getElem_map] at ha1 ha2
    rw [← bucket_eq_getElem s i hi] at ha1
    rw [← bucket_eq_getElem s j hj] at ha2
    have e1 := (wf.2.2.2 i (wf.2.1 ▸ hi)).2.2 a ha1
    have e2 := (wf.2.2.2 j (wf.2.1 ▸ hj)).2.2 a ha2
    omega

/-! ## `rehash` -/

theorem foldl_range_getD {α β : Type} (f : β → α → β) (t : List α) (d : α) (init : β) :
    (List.range t.length).foldl (fun acc i => f acc (t.getD i d)) init = t.foldl f init := by
  induction t using List.reverseRecOn with
  | nil => simp
  | append_singleton t a ih =>
    rw [List.length_append, List.length_singleton, List.range_succ, List.foldl_append,
      List.foldl_append]
    have e : List.foldl (fun acc i => f acc ((t ++ [a]).getD i d)) init (List.range t.length)
        = List.foldl (fun acc i => f acc (t.getD i d)) init (List.range t.length) := by
      apply List.foldl_ext
      intro acc i hi
      rw [List.mem_range] at hi
      simp [List.getD_eq_getElem?_getD, List.getElem?_append_left hi]
    rw [e, ih]
    simp [List.getD_eq_getElem?_getD]

theorem rehashChain_append (hasher : Key → Nat) (n : Nat) (nt : List (linked_list Key))
    (a b : List Key) :
    rehashChain hasher n nt (a ++ b) = rehashChain hasher n (rehashChain hasher n nt a) b := by
  simp [rehashChain, List.foldl_append]

theorem rehash_table (hasher : Key → Nat) (s : ADS_set Key) (n : Nat)
    (hlen : s.table.length = s.max_sz) :
    (rehash hasher s n).table
      = rehashChain hasher n (List.replicate n linked_list.empty) (keys s) := by
  unfold rehash keys
  simp only
  rw [← hlen]
  unfold bucket
  rw [foldl_range_getD (fun nt (l : linked_list Key) => rehashChain hasher n nt l.chain)]
  generalize List.replicate n (linked_list.empty : linked_list Key) = init
  induction s.table generalizing init with
  | nil => simp [rehashChain]
  | cons a t ih =>
    simp only [List.foldl_cons, List.map_cons, List.flatten_cons]
    rw [rehashChain_append, ih]

theorem rehashChain_spec (hasher : Key → Nat) (n : Nat) (hn : 0 < n) (ks : List Key)
    (nt : List (linked_list Key)) (hlen : nt.length = n) :
    (rehashChain hasher n nt ks).length = n ∧
    ∀ j, (rehashChain hasher n nt ks).getD j linked_list.empty =
      ⟨(ks.filter (fun k => hasher k % n = j)).reverse ++ (nt.getD j linked_list.empty).chain,
       (nt.getD j linked_list.empty).sz + (ks.filter (fun k => hasher k % n = j)).length⟩ := by
  induction ks generalizing nt with
  | nil => simp [rehashChain, hlen]
  | cons k ks ih =>
    have hstep : rehashChain hasher n nt (k :: ks) = rehashChain hasher n
        (nt.set (hasher k % n) ((nt.getD (hasher k % n) linked_list.empty).add k)) ks := rfl
    rw [hstep]
    obtain ⟨h1, h2⟩ := ih (nt.set (hasher k % n) ((nt.getD (hasher k % n) linked_list.empty).add k))
      (by simpa using hlen)
    refine ⟨h1, fun j => ?_⟩
    rw [h2 j]
    by_cases e : hasher k % n = j
    · by_cases hj : j < nt.length
      · subst e
        rw [getD_set_eq _ _ _ _ hj]
        simp [List.filter_cons, linked_list.add]
        omega
      · exfalso
        have := Nat.mod_lt (hasher k) hn
        omega
    · rw [getD_set_ne _ _ _ _ _ e]
      simp [List.filter_cons, e]

theorem rehashChain_sum (hasher : Key → Nat) (n : Nat) (hn : 0 < n) (ks : List Key)
    (nt : List (linked_list Key)) (hlen : nt.length = n) :
    ((rehashChain hasher n nt ks).map (fun l => l.sz)).sum
      = (nt.map (fun l => l.sz)).sum + ks.length := by
  induction ks generalizing nt with
  | nil => simp [rehashChain]
  | cons k ks ih =>
    have hstep : rehashChain hasher n nt (k :: ks) = rehashChain hasher n
        (nt.set (hasher k % n) ((nt.getD (hasher k % n) linked_list.empty).add k)) ks := rfl
    rw [hstep, ih _ (by simpa using hlen)]
    have hlt : hasher k % n < nt.length := by rw [hlen]; exact Nat.mod_lt _ hn
    have := sum_map_set (fun l : linked_list Key => l.sz) nt (hasher k % n)
      ((nt.getD (hasher k % n) linked_list.empty).add k) linked_list.empty hlt
    simp only [linked_list.add, List.length_cons] at this ⊢
    omega

theorem bucket_rehash (hasher : Key → Nat) (s : ADS_set Key) (n : Nat) (hn : 0 < n)
    (hlen : s.table.length = s.max_sz) (j : Nat) :
    bucket (rehash hasher s n) j =
      ⟨((keys s).filter (fun k => hasher k % n = j)).reverse,
       ((keys s).filter (fun k => hasher k % n = j)).length⟩ := by
  unfold bucket
  rw [rehash_table hasher s n hlen,
    (rehashChain_spec hasher n hn (keys s) _ (List.length_replicate _ _)).2 j]
  simp [List.getD_eq_getElem?_getD, List.getElem?_replicate, linked_list.empty]
  split <;> simp

theorem rehash_sz (hasher : Key → Nat) (s : ADS_set Key) (n : Nat) :
    (rehash hasher s n).sz = s.sz ∧ (rehash hasher s n).max_sz = n ∧
    (rehash hasher s n).max_load_factor = s.max_load_factor := by
  simp [rehash]

theorem wf_rehash {hasher : Key → Nat} {s : ADS_set Key} (wf : WF hasher s) (n : Nat)
    (hn : 0 < n) : WF hasher (rehash hasher s n) := by
  have hlen := wf.2.1
  refine ⟨by simpa [rehash] using hn, ?_, ?_, ?_⟩
  · rw [rehash_table hasher s n hlen]
    simpa [rehash] using (rehashChain_spec hasher n hn (keys s) _ (List.length_replicate _ _)).1
  · rw [rehash_table hasher s n hlen, rehashChain_sum hasher n hn _ _ (List.length_replicate _ _)]
    simp only [(rehash_sz hasher s n).1]
    rw [wf.size_eq_length]
    simp [linked_list.empty]
  · intro j _
    rw [bucket_rehash hasher s n hn hlen j]
    refine ⟨by simp, ?_, ?_⟩
    · exact List.nodup_reverse.2 (wf.nodup_keys.filter _)
    · intro k hk
      simp only [List.mem_reverse, List.mem_filter, decide_eq_true_eq] at hk
      simpa [rehash] using hk.2

theorem mem_keys_rehash {hasher : Key → Nat} {s : ADS_set Key} (wf : WF hasher s) (n : Nat)
    (hn : 0 < n) (key : Key) : key ∈ keys (rehash hasher s n) ↔ key ∈ keys s := by
  rw [(wf_rehash wf n hn).mem_keys_iff_bucket, bucket_rehash hasher s n hn wf.2.1]
  simp [hash, rehash]

/-! ## `insertPrivate` and `insert` -/

theorem insertPrivate_present (hasher : Key → Nat) (s : ADS_set Key) (key : Key)
    (h : find hasher s key ≠ «end») : insertPrivate hasher s key = (s, false) := by
  simp [insertPrivate, h]

theorem insertPrivate_absent (hasher : Key → Nat) (s : ADS_set Key) (key : Key)
    (h : find hasher s key = «end») :
    insertPrivate hasher s key =
      (if isOverloaded (added hasher s key)
        then rehash hasher (added hasher s key) ((added hasher s key).max_sz * 2)
        else added hasher s key, true) := by
  simp [insertPrivate, h, added]

theorem hash_lt {hasher : Key → Nat} {s : ADS_set Key} (wf : WF hasher s) (key : Key) :
    hash hasher s key < s.max_sz := Nat.mod_lt _ wf.1

theorem wf_added {hasher : Key → Nat} {s : ADS_set Key} (wf : WF hasher s) (key : Key)
    (h : find hasher s key = «end») : WF hasher (added hasher s key) := by
  have hk := (find_eq_end_iff hasher s key).1 h
  have hb := wf.2.2.2 _ (hash_lt wf key)
  refine wf_set wf _ _ _ (hash_lt wf key) ?_ ?_ ?_ ?_
  · simp [linked_list.add, hb.1]
  · simpa [linked_list.add] using ⟨hk, hb.2.1⟩
  · intro k hk2
    simp only [linked_list.add, List.mem_cons] at hk2
    rcases hk2 with rfl | hk2
    · rfl
    · exact hb.2.2 k hk2
  · simp [linked_list.add]
    omega

theorem bucket_added {hasher : Key → Nat} {s : ADS_set Key} (wf : WF hasher s) (key : Key)
    (j : Nat) :
    bucket (added hasher s key) j =
      if j = hash hasher s key then (bucket s j).add key else bucket s j := by
  unfold added
  rw [bucket_set s _ j _ _ (by rw [wf.2.1]; exact hash_lt wf key)]
  by_cases e : j = hash hasher s key
  · simp [e]
  · simp [e]

theorem mem_keys_added {hasher : Key → Nat} {s : ADS_set Key} (wf : WF hasher s) (key : Key)
    (h : find hasher s key = «end») (k : Key) :
    k ∈ keys (added hasher s key) ↔ k = key ∨ k ∈ keys s := by
  rw [(wf_added wf key h).mem_keys_iff_bucket, wf.mem_keys_iff_bucket, bucket_added wf]
  have e : hash hasher (added hasher s key) k = hash hasher s k := rfl
  rw [e]
  by_cases hk : k = key
  · subst hk; simp [linked_list.add]
  · by_cases hh : hash hasher s k = hash hasher s key
    · simp [hh, hk, linked_list.add]
    · simp [hh, hk]

/-- What `insertPrivate` does with a key that `find` does not find. -/
theorem insertPrivate_new {hasher : Key → Nat} {s : ADS_set Key} (wf : WF hasher s) (key : Key)
    (h : find hasher s key = «end») :
    (insertPrivate hasher s key).2 = true ∧
    WF hasher (insertPrivate hasher s key).1 ∧
    (insertPrivate hasher s key).1.sz = s.sz + 1 ∧
    (∀ k, k ∈ keys (insertPrivate hasher s key).1 ↔ k = key ∨ k ∈ keys s) ∧
    (insertPrivate hasher s key).1.max_sz =
      (if 100 * (s.sz + 1) / s.max_sz > s.max_load_factor then s.max_sz * 2 else s.max_sz) ∧
    (insertPrivate hasher s key).1.max_load_factor = s.max_load_factor := by
  rw [insertPrivate_absent hasher s key h]
  have wa := wf_added wf key h
  have hm := mem_keys_added wf key h
  have hov : isOverloaded (added hasher s key) = true ↔
      100 * (s.sz + 1) / s.max_sz > s.max_load_factor := by
    simp [isOverloaded, added]
  have hpos : 0 < (added hasher s key).max_sz * 2 := by
    have := wa.1; omega
  by_cases ho : isOverloaded (added hasher s key) = true
  · have ho2 := hov.1 ho
    simp only [ho, if_true, ho2]
    refine ⟨trivial, wf_rehash wa _ hpos, ?_, ?_, ?_, ?_⟩
    · simp [rehash, added]
    · intro k; rw [mem_keys_rehash wa _ hpos, hm]
    · simp [rehash, added]
    · simp [rehash, added]
  · have ho2 : ¬ (100 * (s.sz + 1) / s.max_sz > s.max_load_factor) := fun c => ho (hov.2 c)
    simp only [ho, if_false, ho2]
    exact ⟨trivial, wa, by simp [added], hm, by simp [added], by simp [added]⟩

theorem insert_fst (hasher : Key → Nat) (s : ADS_set Key) (key : Key) :
    (insert hasher s key).1 = (insertPrivate hasher s key).1 := by
  unfold insert
  by_cases h : find hasher s key ≠ «end»
  · simp [h, insertPrivate_present hasher s key h]
  · simp [h]

/-- The effect of `insert` on a well-formed state, in terms of the stored keys. -/
theorem wf_insert {hasher : Key → Nat} {s : ADS_set Key} (wf : WF hasher s) (key : Key) :
    WF hasher (insert hasher s key).1 ∧
    ∀ k, k ∈ keys (insert hasher s key).1 ↔ k = key ∨ k ∈ keys s := by
  rw [insert_fst]
  by_cases h : find hasher s key ≠ «end»
  · rw [insertPrivate_present hasher s key h]
    refine ⟨wf, fun k => ?_⟩
    have := (wf.mem_keys_iff_bucket key).2 ((find_ne_end_iff hasher s key).1 h)
    constructor
    · exact fun hk => Or.inr hk
    · rintro (rfl | hk)
      · exact this
      · exact hk
  · have h2 : find hasher s key = «end» := by simpa using h
    have := insertPrivate_new wf key h2
    exact ⟨this.2.1, this.2.2.2.1⟩

/-! ## `erase` -/

theorem linked_list_erase_of_mem (l : linked_list Key) (key : Key) (h : key ∈ l.chain) :
    l.erase key = (⟨l.chain.erase key, l.sz - 1⟩, true) := by
  simp [linked_list.erase, eraseLoop_of_mem key l.chain h]

theorem erase_absent (hasher : Key → Nat) (s : ADS_set Key) (key : Key)
    (h : find hasher s key = «end») : erase hasher s key = (s, 0) := by
  simp [erase, h]

theorem erase_present (hasher : Key → Nat) (s : ADS_set Key) (key : Key)
    (h : find hasher s key ≠ «end») :
    erase hasher s key =
      ({ s with
         table := s.table.set (hash hasher s key)
           ⟨(bucket s (hash hasher s key)).chain.erase key, (bucket s (hash hasher s key)).sz - 1⟩
         sz := s.sz - 1 }, 1) := by
  have hk := (find_ne_end_iff hasher s key).1 h
  simp [erase, h, linked_list_erase_of_mem _ key hk]

theorem sum_pos_of_getD {α : Type} (f : α → Nat) (t : List α) (i : Nat) (d : α)
    (h : i < t.length) : f (t.getD i d) ≤ (t.map f).sum := by
  induction t generalizing i with
  | nil => simp at h
  | cons a t ih =>
    cases i with
    | zero => simp
    | succ i =>
      have := ih i (by simpa using h)
      simp only [List.getD_cons_succ, List.map_cons, List.sum_cons]
      omega

/-- What `erase` does with a key that `find` finds. -/
theorem erase_found {hasher : Key → Nat} {s : ADS_set Key} (wf : WF hasher s) (key : Key)
    (h : find hasher s key ≠ «end») :
    (erase hasher s key).2 = 1 ∧
    WF hasher (erase hasher s key).1 ∧
    (erase hasher s key).1.sz + 1 = s.sz ∧
    (erase hasher s key).1.max_sz = s.max_sz ∧
    (erase hasher s key).1.max_load_factor = s.max_load_factor ∧
    (erase hasher s key).1.table.length = s.table.length ∧
    (∀ j, j ≠ hash hasher s key → bucket (erase hasher s key).1 j = bucket s j) ∧
    (bucket (erase hasher s key).1 (hash hasher s key)).chain
      = (bucket s (hash hasher s key)).chain.erase key ∧
    (∀ k, k ∈ keys (erase hasher s key).1 ↔ k ≠ key ∧ k ∈ keys s) := by
  have hk := (find_ne_end_iff hasher s key).1 h
  have hb := wf.2.2.2 _ (hash_lt wf key)
  have hi : hash hasher s key < s.table.length := by rw [wf.2.1]; exact hash_lt wf key
  have hbpos : 0 < (bucket s (hash hasher s key)).sz := by
    rw [hb.1]; exact List.length_pos_of_mem hk
  have hle : (bucket s (hash hasher s key)).sz ≤ s.sz := by
    rw [wf.2.2.1]
    exact sum_pos_of_getD (fun l : linked_list Key => l.sz) s.table _ linked_list.empty hi
  rw [erase_present hasher s key h]
  have wf2 : WF hasher { s with
      table := s.table.set (hash hasher s key)
        ⟨(bucket s (hash hasher s key)).chain.erase key, (bucket s (hash hasher s key)).sz - 1⟩
      sz := s.sz - 1 } := by
    refine wf_set wf _ _ _ (hash_lt wf key) ?_ ?_ ?_ ?_
    · simp only [List.length_erase_of_mem hk, hb.1]
    · exact hb.2.1.erase key
    · intro k hk2
      exact hb.2.2 k (List.mem_of_mem_erase hk2)
    · simp only; omega
  have hbk : ∀ j, bucket { s with
      table := s.table.set (hash hasher s key)
        ⟨(bucket s (hash hasher s key)).chain.erase key, (bucket s (hash hasher s key)).sz - 1⟩
      sz := s.sz - 1 } j = if j = hash hasher s key then
        ⟨(bucket s (hash hasher s key)).chain.erase key, (bucket s (hash hasher s key)).sz - 1⟩
        else bucket s j := fun j => bucket_set s _ j _ _ hi
  refine ⟨rfl, wf2, ?_, rfl, rfl, by simp, ?_, ?_, ?_⟩
  · simp only; omega
  · intro j hj
    rw [hbk j]; simp [hj]
  · rw [hbk]; simp
  · intro k
    rw [wf2.mem_keys_iff_bucket, wf.mem_keys_iff_bucket, hbk]
    have e : ∀ t sz', hash hasher ({ s with table := t, sz := sz' } : ADS_set Key) k
        = hash hasher s k := fun _ _ => rfl
    rw [e]
    by_cases hh : hash hasher s k = hash hasher s key
    · simp only [hh, if_true]
      rw [hb.2.1.mem_erase_iff]
    · simp only [hh, if_false]
      constructor
      · intro hm
        refine ⟨?_, hm⟩
        rintro rfl
        exact hh rfl
      · exact fun hm => hm.2

/-! ## Single-key `insert` and `erase` on a well-formed state -/

/-- C2: on a well-formed set, `insert` of an absent key returns the flag `true` and
an iterator that is not `end()` and dereferences to the key; afterwards `size()` is
one larger and `count(key)` is 1 (whether or not the call rehashes). -/
theorem insert_absent_key (hasher : Key → Nat) (s : ADS_set Key) (wf : WF hasher s)
    (key : Key) (habs : count hasher s key = 0) :
    (insert hasher s key).2.2 = true ∧
    (insert hasher s key).2.1 ≠ «end» ∧
    deref (insert hasher s key).1 (insert hasher s key).2.1 = some key ∧
    size (insert hasher s key).1 = size s + 1 ∧
    count hasher (insert hasher s key).1 key = 1 := by
  have hf : find hasher s key = «end» :=
    (find_eq_end_iff hasher s key).2 ((count_eq_zero_iff hasher s key).1 habs)
  have hn := insertPrivate_new wf key hf
  have hi : insert hasher s key = ((insertPrivate hasher s key).1,
      (find hasher (insertPrivate hasher s key).1 key, true)) := by
    simp [insert, hf]
  have hmem : key ∈ keys (insertPrivate hasher s key).1 := (hn.2.2.2.1 key).2 (Or.inl rfl)
  have hfound : find hasher (insertPrivate hasher s key).1 key ≠ «end» :=
    (find_ne_end_iff hasher _ key).2 ((hn.2.1.mem_keys_iff_bucket key).1 hmem)
  rw [hi]
  exact ⟨rfl, hfound, deref_find hasher _ key hfound, hn.2.2.1,
    (hn.2.1.count_eq_one_iff_mem key).2 hmem⟩

theorem insert_absent_key_witness :
    (insert (fun k : Nat => k) (new 1) 5).2.2 = true ∧
    (insert (fun k : Nat => k) (new 1) 5).2.1 ≠ «end» ∧
    deref (insert (fun k : Nat => k) (new 1) 5).1 (insert (fun k : Nat => k) (new 1) 5).2.1
      = some 5 ∧
    size (insert (fun k : Nat => k) (new 1) 5).1 = size (new 1 : ADS_set Nat) + 1 ∧
    count (fun k : Nat => k) (insert (fun k : Nat => k) (new 1) 5).1 5 = 1 :=
  insert_absent_key (fun k : Nat => k) (new 1) (by decide) 5 (by decide)

/-- C3: on a well-formed set, `insert` of a present key returns `false` with the
position `find` gives and leaves the state untouched; inserting the same key twice in
a row, the second call reports `false` and `size()` stays what the first call left. -/
theorem insert_idempotent (hasher : Key → Nat) (s : ADS_set Key) (wf : WF hasher s)
    (key : Key) :
    (count hasher s key = 1 → insert hasher s key = (s, (find hasher s key, false))) ∧
    (insert hasher (insert hasher s key).1 key).2.2 = false ∧
    (insert hasher (insert hasher s key).1 key).1 = (insert hasher s key).1 ∧
    size (insert hasher (insert hasher s key).1 key).1 = size (insert hasher s key).1 := by
  have hpres : ∀ t : ADS_set Key, find hasher t key ≠ «end» →
      insert hasher t key = (t, (find hasher t key, false)) := by
    intro t ht
    simp [insert, ht]
  have h1 := wf_insert wf key
  have hfound : find hasher (insert hasher s key).1 key ≠ «end» :=
    (find_ne_end_iff hasher _ key).2 ((h1.1.mem_keys_iff_bucket key).1 ((h1.2 key).2 (Or.inl rfl)))
  refine ⟨fun hc => hpres s ((find_ne_end_iff hasher s key).2
    ((count_eq_one_iff hasher s key).1 hc)), ?_, ?_, ?_⟩ <;> rw [hpres _ hfound]

theorem insert_idempotent_witness :
    (count (fun k : Nat => k) (insert (fun k : Nat => k) (new 7) 3).1 3 = 1 →
      insert (fun k : Nat => k) (insert (fun k : Nat => k) (new 7) 3).1 3
        = ((insert (fun k : Nat => k) (new 7) 3).1,
           (find (fun k : Nat => k) (insert (fun k : Nat => k) (new 7) 3).1 3, false))) ∧
    (insert (fun k : Nat => k)
      (insert (fun k : Nat => k) (insert (fun k : Nat => k) (new 7) 3).1 3).1 3).2.2 = false ∧
    (insert (fun k : Nat => k)
      (insert (fun k : Nat => k) (insert (fun k : Nat => k) (new 7) 3).1 3).1 3).1
      = (insert (fun k : Nat => k) (insert (fun k : Nat => k) (new 7) 3).1 3).1 ∧
    size (insert (fun k : Nat => k)
      (insert (fun k : Nat => k) (insert (fun k : Nat => k) (new 7) 3).1 3).1 3).1
      = size (insert (fun k : Nat => k) (insert (fun k : Nat => k) (new 7) 3).1 3).1 :=
  insert_idempotent (fun k : Nat => k) (insert (fun k : Nat => k) (new 7) 3).1 (by decide) 3

/-- C5: on a well-formed set, `erase(key)` returns 1 exactly when `find(key)` was not
`end()` just before the call and 0 otherwise; after an erase that returned 1,
`find(key)` is `end()` and `count(key)` is 0. -/
theorem find_erase_agreement (hasher : Key → Nat) (s : ADS_set Key) (wf : WF hasher s)
    (key : Key) :
    ((erase hasher s key).2 = 1 ↔ find hasher s key ≠ «end») ∧
    (find hasher s key = «end» → (erase hasher s key).2 = 0) ∧
    ((erase hasher s key).2 = 1 →
      find hasher (erase hasher s key).1 key = «end» ∧
      count hasher (erase hasher s key).1 key = 0) := by
  by_cases h : find hasher s key ≠ «end»
  · have he := erase_found wf key h
    have hgone : key ∉ keys (erase hasher s key).1 := fun hm =>
      ((he.2.2.2.2.2.2.2.2 key).1 hm).1 rfl
    have hgone2 := fun hm => hgone ((he.2.1.mem_keys_iff_bucket key).2 hm)
    refine ⟨⟨fun _ => h, fun _ => he.1⟩, fun hc => absurd hc h, fun _ => ?_⟩
    exact ⟨(find_eq_end_iff hasher _ key).2 hgone2, (count_eq_zero_iff hasher _ key).2 hgone2⟩
  · have h2 : find hasher s key = «end» := by simpa using h
    rw [erase_absent hasher s key h2]
    simp [h2]

theorem find_erase_agreement_witness :
    ((erase (fun k : Nat => k) (insert (fun k : Nat => k) (new 7) 3).1 3).2 = 1 ↔
      find (fun k : Nat => k) (insert (fun k : Nat => k) (new 7) 3).1 3 ≠ «end») ∧
    (find (fun k : Nat => k) (insert (fun k : Nat => k) (new 7) 3).1 3 = «end» →
      (erase (fun k : Nat => k) (insert (fun k : Nat => k) (new 7) 3).1 3).2 = 0) ∧
    ((erase (fun k : Nat => k) (insert (fun k : Nat => k) (new 7) 3).1 3).2 = 1 →
      find (fun k : Nat => k)
        (erase (fun k : Nat => k) (insert (fun k : Nat => k) (new 7) 3).1 3).1 3 = «end» ∧
      count (fun k : Nat => k)
        (erase (fun k : Nat => k) (insert (fun k : Nat => k) (new 7) 3).1 3).1 3 = 0) :=
  find_erase_agreement (fun k : Nat => k) (insert (fun k : Nat => k) (new 7) 3).1 (by decide) 3

/-- C6: for every state and every key with `find(key) == end()`, `erase(key)` returns
0 and the state (all buckets, `sz`, `max_sz`) is unchanged. -/
theorem erase_absent_noop (hasher : Key → Nat) (s : ADS_set Key) (key : Key)
    (h : find hasher s key = «end») :
    (erase hasher s key).2 = 0 ∧ (erase hasher s key).1 = s := by
  rw [erase_absent hasher s key h]
  exact ⟨rfl, rfl⟩

theorem erase_absent_noop_witness :
    (erase (fun k : Nat => k) (insert (fun k : Nat => k) (new 7) 3).1 10).2 = 0 ∧
    (erase (fun k : Nat => k) (insert (fun k : Nat => k) (new 7) 3).1 10).1
      = (insert (fun k : Nat => k) (new 7) 3).1 :=
  erase_absent_noop (fun k : Nat => k) (insert (fun k : Nat => k) (new 7) 3).1 10 (by decide)

/-- C7: on a well-formed set, `erase` of a present key lowers `size()` by exactly 1,
keeps the capacity and the number of buckets, leaves every bucket other than bucket
`hash(key)` as it was, and leaves `count` of every other key as it was. -/
theorem erase_present_frame (hasher : Key → Nat) (s : ADS_set Key) (wf : WF hasher s)
    (key : Key) (hpres : count hasher s key = 1) :
    size (erase hasher s key).1 + 1 = size s ∧
    (erase hasher s key).1.max_sz = s.max_sz ∧
    (erase hasher s key).1.table.length = s.table.length ∧
    (∀ j, j ≠ hash hasher s key → bucket (erase hasher s key).1 j = bucket s j) ∧
    (∀ k, k ≠ key → count hasher (erase hasher s key).1 k = count hasher s k) := by
  have h : find hasher s key ≠ «end» :=
    (find_ne_end_iff hasher s key).2 ((count_eq_one_iff hasher s key).1 hpres)
  have he := erase_found wf key h
  refine ⟨he.2.2.1, he.2.2.2.1, he.2.2.2.2.2.1, he.2.2.2.2.2.2.1, fun k hk => ?_⟩
  have hiff : k ∈ keys (erase hasher s key).1 ↔ k ∈ keys s := by
    rw [he.2.2.2.2.2.2.2.2 k]
    exact ⟨fun hh => hh.2, fun hh => ⟨hk, hh⟩⟩
  rw [← he.2.1.count_eq_one_iff_mem, ← wf.count_eq_one_iff_mem] at hiff
  unfold count at hiff ⊢
  split <;> split <;> simp_all

theorem erase_present_frame_witness :
    size (erase (fun k : Nat => k) (insertList (fun k : Nat => k) (new 7) [3, 10, 4]) 3).1 + 1
      = size (insertList (fun k : Nat => k) (new 7) [3, 10, 4]) ∧
    (erase (fun k : Nat => k) (insertList (fun k : Nat => k) (new 7) [3, 10, 4]) 3).1.max_sz
      = (insertList (fun k : Nat => k) (new 7) [3, 10, 4]).max_sz ∧
    (erase (fun k : Nat => k) (insertList (fun k : Nat => k) (new 7) [3, 10, 4]) 3).1.table.length
      = (insertList (fun k : Nat => k) (new 7) [3, 10, 4]).table.length ∧
    (∀ j, j ≠ hash (fun k : Nat => k) (insertList (fun k : Nat => k) (new 7) [3, 10, 4]) 3 →
      bucket (erase (fun k : Nat => k) (insertList (fun k : Nat => k) (new 7) [3, 10, 4]) 3).1 j
        = bucket (insertList (fun k : Nat => k) (new 7) [3, 10, 4]) j) ∧
    (∀ k, k ≠ 3 →
      count (fun k : Nat => k)
        (erase (fun k : Nat => k) (insertList (fun k : Nat => k) (new 7) [3, 10, 4]) 3).1 k
        = count (fun k : Nat => k) (insertList (fun k : Nat => k) (new 7) [3, 10, 4]) k) :=
  erase_present_frame (fun k : Nat => k) (insertList (fun k : Nat => k) (new 7) [3, 10, 4])
    (by decide) 3 (by decide)

/-! ## Sequences of calls -/

theorem wf_new (hasher : Key → Nat) (N : Nat) (hN : 1 ≤ N) :
    WF hasher (new N : ADS_set Key) := by
  refine ⟨hN, by simp [new], ?_, ?_⟩
  · simp [new, linked_list.empty]
  · intro i hi
    have hi2 : i < N := hi
    simp [bucket, new, List.getD_eq_getElem?_getD, List.getElem?_replicate, hi2,
      linked_list.empty]

theorem keys_new (N : Nat) : keys (new N : ADS_set Key) = [] := by
  simp [keys, new, linked_list.empty]

/-- The effect of `erase` on a well-formed state, in terms of the stored keys. -/
theorem wf_erase {hasher : Key → Nat} {s : ADS_set Key} (wf : WF hasher s) (key : Key) :
    WF hasher (erase hasher s key).1 ∧
    ∀ k, k ∈ keys (erase hasher s key).1 ↔ k ≠ key ∧ k ∈ keys s := by
  by_cases h : find hasher s key ≠ «end»
  · have he := erase_found wf key h
    exact ⟨he.2.1, he.2.2.2.2.2.2.2.2⟩
  · have h2 : find hasher s key = «end» := by simpa using h
    rw [erase_absent hasher s key h2]
    refine ⟨wf, fun k => ⟨fun hk => ⟨?_, hk⟩, fun hk => hk.2⟩⟩
    rintro rfl
    exact (find_eq_end_iff hasher s k).1 h2 ((wf.mem_keys_iff_bucket k).1 hk)

theorem run_refines (hasher : Key → Nat) (ops : List (Op Key)) (s : ADS_set Key)
    (A : Finset Key) (wf : WF hasher s) (hA : ∀ k, k ∈ keys s ↔ k ∈ A) :
    WF hasher (run hasher s ops) ∧
    ∀ k, k ∈ keys (run hasher s ops) ↔
      k ∈ ops.foldl (fun A op =>
        match op with
        | Op.insert key => A ∪ {key}
        | Op.erase key => A \ {key}) A := by
  induction ops generalizing s A with
  | nil => exact ⟨wf, hA⟩
  | cons op ops ih =>
    cases op with
    | insert key =>
      have h := wf_insert wf key
      refine ih (step hasher s (Op.insert key)) (A ∪ {key}) h.1 (fun k => ?_)
      show k ∈ keys (insert hasher s key).1 ↔ _
      rw [h.2 k, hA k]
      simp [or_comm]
    | erase key =>
      have h := wf_erase wf key
      refine ih (step hasher s (Op.erase key)) (A \ {key}) h.1 (fun k => ?_)
      show k ∈ keys (erase hasher s key).1 ↔ _
      rw [h.2 k, hA k]
      simp [and_comm]

theorem run_new_refines (hasher : Key → Nat) (N : Nat) (hN : 1 ≤ N) (ops : List (Op Key)) :
    WF hasher (run hasher (new N) ops) ∧
    ∀ k, k ∈ keys (run hasher (new N) ops) ↔ k ∈ replay ops :=
  run_refines hasher ops (new N) ∅ (wf_new hasher N hN) (fun k => by simp [keys_new])

/-- C1: starting from an empty set with `N ≥ 1` buckets, after any sequence of
`insert` and `erase` calls and for any hash function, `count(k)` is 1 if `k` is in
the abstract set obtained by replaying the calls and 0 otherwise, `size()` is the
cardinality of that set, and no key is stored twice. -/
theorem set_refinement (hasher : Key → Nat) (N : Nat) (hN : 1 ≤ N) (ops : List (Op Key))
    (k : Key) :
    count hasher (run hasher (new N) ops) k = (if k ∈ replay ops then 1 else 0) ∧
    size (run hasher (new N) ops) = (replay ops).card ∧
    count hasher (run hasher (new N) ops) k ≤ 1 ∧
    (keys (run hasher (new N) ops)).Nodup := by
  obtain ⟨wf, hk⟩ := run_new_refines hasher N hN ops
  have hc : count hasher (run hasher (new N) ops) k = (if k ∈ replay ops then 1 else 0) := by
    by_cases hm : k ∈ replay ops
    · simp only [hm, if_true]
      exact (wf.count_eq_one_iff_mem k).2 ((hk k).2 hm)
    · simp only [hm, if_false]
      rw [count_eq_zero_iff, ← wf.mem_keys_iff_bucket, hk k]
      exact hm
  refine ⟨hc, ?_, ?_, wf.nodup_keys⟩
  · have e : (keys (run hasher (new N) ops)).toFinset = replay ops := by
      ext x; simp [hk x]
    unfold size
    rw [wf.size_eq_length, ← List.toFinset_card_of_nodup wf.nodup_keys, e]
  · rw [hc]; split <;> simp

theorem set_refinement_witness :
    count (fun k : Nat => k) (run (fun k : Nat => k) (new 7)
        [Op.insert 1, Op.insert 8, Op.insert 1, Op.erase 1, Op.erase 5, Op.insert 15]) 8
      = (if 8 ∈ replay [Op.insert 1, Op.insert 8, Op.insert 1, Op.erase 1, Op.erase 5,
          Op.insert 15] then 1 else 0) ∧
    size (run (fun k : Nat => k) (new 7)
        [Op.insert 1, Op.insert 8, Op.insert 1, Op.erase 1, Op.erase 5, Op.insert 15])
      = (replay [Op.insert 1, Op.insert 8, Op.insert 1, Op.erase 1, Op.erase 5,
          Op.insert 15]).card ∧
    count (fun k : Nat => k) (run (fun k : Nat => k) (new 7)
        [Op.insert 1, Op.insert 8, Op.insert 1, Op.erase 1, Op.erase 5, Op.insert 15]) 8 ≤ 1 ∧
    (keys (run (fun k : Nat => k) (new 7)
        [Op.insert 1, Op.insert 8, Op.insert 1, Op.erase 1, Op.erase 5, Op.insert 15])).Nodup :=
  set_refinement (fun k : Nat => k) 7 (by decide)
    [Op.insert 1, Op.insert 8, Op.insert 1, Op.erase 1, Op.erase 5, Op.insert 15] 8

/-- C4: on a well-formed set, `rehash(n)` with `n ≥ 1` keeps `find` succeeding for
exactly the same keys and keeps `size()`; `insert(x)` keeps `count(k)` for every key
`k ≠ x`, with or without doubling; and after inserting 11 distinct keys into an
empty set of capacity 7 every one of them is found. -/
theorem membership_preserved (hasher : Key → Nat) (s : ADS_set Key) (wf : WF hasher s) :
    (∀ n, 1 ≤ n → ∀ k,
      (find hasher (rehash hasher s n) k ≠ «end» ↔ find hasher s k ≠ «end») ∧
      size (rehash hasher s n) = size s) ∧
    (∀ x k, k ≠ x → count hasher (insert hasher s x).1 k = count hasher s k) ∧
    (∀ ks : List Key, ks.Nodup → ks.length = 11 → ∀ k ∈ ks,
      count hasher (run hasher (new 7) (ks.map Op.insert)) k = 1) := by
  refine ⟨fun n hn k => ⟨?_, rfl⟩, fun x k hk => ?_, fun ks _ _ k hk => ?_⟩
  · rw [find_ne_end_iff, find_ne_end_iff, ← (wf_rehash wf n hn).mem_keys_iff_bucket,
      ← wf.mem_keys_iff_bucket]
    exact mem_keys_rehash wf n hn k
  · have h := wf_insert wf x
    have hiff : k ∈ keys (insert hasher s x).1 ↔ k ∈ keys s := by
      rw [h.2 k]
      exact ⟨fun hh => hh.resolve_left hk, Or.inr⟩
    rw [← h.1.count_eq_one_iff_mem, ← wf.count_eq_one_iff_mem] at hiff
    unfold count at hiff ⊢
    split <;> split <;> simp_all
  · obtain ⟨wf2, hm⟩ := run_new_refines hasher 7 (by decide) (ks.map Op.insert)
    rw [wf2.count_eq_one_iff_mem, hm]
    have : ∀ (l : List Key) (A : Finset Key), k ∈ l ∨ k ∈ A →
        k ∈ (l.map Op.insert).foldl (fun A op =>
          match op with
          | Op.insert key => A ∪ {key}
          | Op.erase key => A \ {key}) A := by
      intro l
      induction l with
      | nil => intro A h; simpa using h
      | cons a l ih =>
        intro A h
        refine ih (A ∪ {a}) ?_
        rcases h with h | h
        · rcases List.mem_cons.1 h with rfl | h
          · right; simp
          · left; exact h
        · right; simp [h]
    exact this ks ∅ (Or.inl hk)

theorem membership_preserved_witness :
    (∀ n, 1 ≤ n → ∀ k,
      (find (fun k : Nat => k)
          (rehash (fun k : Nat => k) (insertList (fun k : Nat => k) (new 7) [3, 10, 4]) n) k
          ≠ «end» ↔
        find (fun k : Nat => k) (insertList (fun k : Nat => k) (new 7) [3, 10, 4]) k ≠ «end») ∧
      size (rehash (fun k : Nat => k) (insertList (fun k : Nat => k) (new 7) [3, 10, 4]) n)
        = size (insertList (fun k : Nat => k) (new 7) [3, 10, 4])) ∧
    (∀ x k, k ≠ x →
      count (fun k : Nat => k)
          (insert (fun k : Nat => k) (insertList (fun k : Nat => k) (new 7) [3, 10, 4]) x).1 k
        = count (fun k : Nat => k) (insertList (fun k : Nat => k) (new 7) [3, 10, 4]) k) ∧
    (∀ ks : List Nat, ks.Nodup → ks.length = 11 → ∀ k ∈ ks,
      count (fun k : Nat => k) (run (fun k : Nat => k) (new 7) (ks.map Op.insert)) k = 1) :=
  membership_preserved (fun k : Nat => k) (insertList (fun k : Nat => k) (new 7) [3, 10, 4])
    (by decide)

/-! ## The load factor -/

theorem div_le_seventy_iff (a c : Nat) (hc : 0 < c) : a / c ≤ 70 ↔ a < 71 * c := by
  rw [← Nat.lt_succ_iff, Nat.div_lt_iff_lt_mul hc]

theorem loadOk_insertPrivate (hasher : Key → Nat) (s : ADS_set Key) (key : Key)
    (h : LoadOk s) :
    LoadOk (insertPrivate hasher s key).1 ∧
    ((insertPrivate hasher s key).1.max_sz = s.max_sz ∨
     (insertPrivate hasher s key).1.max_sz = s.max_sz * 2) := by
  obtain ⟨hm, hpos, hl⟩ := h
  by_cases hf : find hasher s key ≠ «end»
  · rw [insertPrivate_present hasher s key hf]
    exact ⟨⟨hm, hpos, hl⟩, Or.inl rfl⟩
  · have hf2 : find hasher s key = «end» := by simpa using hf
    rw [insertPrivate_absent hasher s key hf2]
    rw [div_le_seventy_iff _ _ hpos] at hl
    by_cases ho : isOverloaded (added hasher s key) = true
    · simp only [ho, if_true]
      refine ⟨⟨hm, ?_, ?_⟩, Or.inr rfl⟩
      · show 0 < s.max_sz * 2
        omega
      · show 100 * (s.sz + 1) / (s.max_sz * 2) ≤ 70
        rw [div_le_seventy_iff _ _ (by omega)]
        omega
    · simp only [ho, if_false]
      refine ⟨⟨hm, hpos, ?_⟩, Or.inl rfl⟩
      have ho2 : ¬ (100 * (s.sz + 1) / s.max_sz > s.max_load_factor) := by
        simpa [isOverloaded, added] using ho
      show 100 * (s.sz + 1) / s.max_sz ≤ 70
      rw [hm] at ho2
      omega

theorem loadOk_insert (hasher : Key → Nat) (s : ADS_set Key) (key : Key) (h : LoadOk s) :
    LoadOk (insert hasher s key).1 := by
  rw [insert_fst]
  exact (loadOk_insertPrivate hasher s key h).1

theorem loadOk_insertList (hasher : Key → Nat) (ks : List Key) (s : ADS_set Key)
    (h : LoadOk s) : LoadOk (insertList hasher s ks) := by
  induction ks generalizing s with
  | nil => exact h
  | cons k ks ih => exact ih _ (loadOk_insertPrivate hasher s k h).1

theorem loadOk_insertRange (hasher : Key → Nat) (other : ADS_set Key) (fuel : Nat)
    (it : Iterator) (s s' : ADS_set Key) (h : LoadOk s)
    (hr : insertRange hasher other fuel it s = some s') : LoadOk s' := by
  induction fuel generalizing it s with
  | zero => simp [insertRange] at hr
  | succ fuel ih =>
    unfold insertRange at hr
    by_cases hit : it ≠ «end»
    · rw [if_pos hit] at hr
      cases hd : deref other it with
      | none => simp [hd] at hr
      | some key =>
        simp only [hd] at hr
        exact ih _ _ (loadOk_insertPrivate hasher s key h).1 hr
    · rw [if_neg hit] at hr
      cases hr
      exact h

theorem loadOk_erase (hasher : Key → Nat) (s : ADS_set Key) (key : Key) (h : LoadOk s) :
    LoadOk (erase hasher s key).1 := by
  obtain ⟨hm, hpos, hl⟩ := h
  unfold erase
  by_cases hf : find hasher s key = «end»
  · simp only [hf, if_true]; exact ⟨hm, hpos, hl⟩
  · simp only [hf, if_false]
    refine ⟨hm, hpos, ?_⟩
    show 100 * (s.sz - 1) / s.max_sz ≤ 70
    rw [div_le_seventy_iff _ _ hpos] at hl ⊢
    omega

theorem loadOk_clear (s : ADS_set Key) (h : LoadOk s) : LoadOk (clear s) := by
  obtain ⟨hm, hpos, _⟩ := h
  exact ⟨hm, hpos, by simp [clear]⟩

theorem loadOk_new (N : Nat) (hN : 1 ≤ N) : LoadOk (new N : ADS_set Key) :=
  ⟨rfl, hN, by simp [new]⟩

theorem loadOk_of_reachable (hasher : Key → Nat) (N : Nat) (hN : 1 ≤ N) (s : ADS_set Key)
    (hr : Reachable hasher N s) : LoadOk s := by
  induction hr with
  | new => exact loadOk_new N hN
  | insert key _ ih => exact loadOk_insert hasher _ key ih
  | insertList ks _ ih => exact loadOk_insertList hasher ks _ ih
  | insertRange fuel _ _ he ih _ => exact loadOk_insertRange hasher _ fuel _ _ _ ih he
  | erase key _ ih => exact loadOk_erase hasher _ key ih
  | clear _ ih => exact loadOk_clear _ ih
  | swap_this _ _ ih1 ih2 => exact ⟨ih1.1, ih2.2.1, ih2.2.2⟩
  | swap_other _ _ ih1 ih2 => exact ⟨ih2.1, ih1.2.1, ih1.2.2⟩
  | assign fuel _ _ he ih _ => exact loadOk_insertRange hasher _ fuel _ _ _ (loadOk_clear _ ih) he
  | assignSelf fuel _ he ih => exact loadOk_insertRange hasher _ fuel _ _ _ (loadOk_clear _ ih) he
  | assignList ks _ ih => exact loadOk_insertList hasher ks _ (loadOk_clear _ ih)

/-- C8: for every state reachable from an empty set (`N ≥ 1` buckets, max load factor
70) by the public operations, after a single-key insertion, a bulk insertion of a
sequence, or a bulk insertion of another container's range returns,
`100 * size() / max_sz ≤ 70` with truncating division; a single-key insertion leaves
the capacity as it was or doubles it once. -/
theorem load_factor_bound (hasher : Key → Nat) (N : Nat) (hN : 1 ≤ N) (s : ADS_set Key)
    (hr : Reachable hasher N s) :
    (∀ key, 100 * size (insert hasher s key).1 / (insert hasher s key).1.max_sz ≤ 70 ∧
      ((insert hasher s key).1.max_sz = s.max_sz ∨
       (insert hasher s key).1.max_sz = s.max_sz * 2)) ∧
    (∀ ks, 100 * size (insertList hasher s ks) / (insertList hasher s ks).max_sz ≤ 70) ∧
    (∀ other fuel s', Reachable hasher N other →
      insertRange hasher other fuel («begin» other) s = some s' →
      100 * size s' / s'.max_sz ≤ 70) := by
  have h := loadOk_of_reachable hasher N hN s hr
  refine ⟨fun key => ⟨(loadOk_insert hasher s key h).2.2, ?_⟩,
    fun ks => (loadOk_insertList hasher ks s h).2.2,
    fun other fuel s' _ he => (loadOk_insertRange hasher other fuel _ s s' h he).2.2⟩
  rw [insert_fst]
  exact (loadOk_insertPrivate hasher s key h).2

theorem load_factor_bound_witness :
    (∀ key, 100 * size (insert (fun k : Nat => k) (erase (fun k : Nat => k)
          (insertList (fun k : Nat => k) (new 7) [1, 2, 3, 4]) 2).1 key).1 /
        (insert (fun k : Nat => k) (erase (fun k : Nat => k)
          (insertList (fun k : Nat => k) (new 7) [1, 2, 3, 4]) 2).1 key).1.max_sz ≤ 70 ∧
      ((insert (fun k : Nat => k) (erase (fun k : Nat => k)
          (insertList (fun k : Nat => k) (new 7) [1, 2, 3, 4]) 2).1 key).1.max_sz
        = (erase (fun k : Nat => k)
          (insertList (fun k : Nat => k) (new 7) [1, 2, 3, 4]) 2).1.max_sz ∨
       (insert (fun k : Nat => k) (erase (fun k : Nat => k)
          (insertList (fun k : Nat => k) (new 7) [1, 2, 3, 4]) 2).1 key).1.max_sz
        = (erase (fun k : Nat => k)
          (insertList (fun k : Nat => k) (new 7) [1, 2, 3, 4]) 2).1.max_sz * 2)) ∧
    (∀ ks, 100 * size (insertList (fun k : Nat => k) (erase (fun k : Nat => k)
          (insertList (fun k : Nat => k) (new 7) [1, 2, 3, 4]) 2).1 ks) /
        (insertList (fun k : Nat => k) (erase (fun k : Nat => k)
          (insertList (fun k : Nat => k) (new 7) [1, 2, 3, 4]) 2).1 ks).max_sz ≤ 70) ∧
    (∀ other fuel s', Reachable (fun k : Nat => k) 7 other →
      insertRange (fun k : Nat => k) other fuel («begin» other) (erase (fun k : Nat => k)
          (insertList (fun k : Nat => k) (new 7) [1, 2, 3, 4]) 2).1 = some s' →
      100 * size s' / s'.max_sz ≤ 70) :=
  load_factor_bound (fun k : Nat => k) 7 (by decide)
    (erase (fun k : Nat => k) (insertList (fun k : Nat => k) (new 7) [1, 2, 3, 4]) 2).1
    (Reachable.erase 2 (Reachable.insertList [1, 2, 3, 4] Reachable.new))

/-! ## Iteration -/

theorem findNextLoop_none (s : ADS_set Key) (fuel i : Nat)
    (h : findNextLoop s fuel i = none) :
    ∀ j, i ≤ j → j < i + fuel → (bucket s j).sz = 0 := by
  induction fuel generalizing i with
  | zero => intro j h1 h2; omega
  | succ fuel ih =>
    unfold findNextLoop at h
    by_cases hb : (bucket s i).sz > 0
    · simp [hb] at h
    · rw [if_neg hb] at h
      intro j h1 h2
      rcases Nat.eq_or_lt_of_le h1 with e | e
      · subst e; omega
      · exact ih (i + 1) h j e (by omega)

theorem findNextLoop_some (s : ADS_set Key) (fuel i j : Nat)
    (h : findNextLoop s fuel i = some j) :
    i ≤ j ∧ j < i + fuel ∧ 0 < (bucket s j).sz ∧
    ∀ m, i ≤ m → m < j → (bucket s m).sz = 0 := by
  induction fuel generalizing i with
  | zero => simp [findNextLoop] at h
  | succ fuel ih =>
    unfold findNextLoop at h
    by_cases hb : (bucket s i).sz > 0
    · rw [if_pos hb] at h
      cases h
      exact ⟨le_refl _, by omega, hb, fun m h1 h2 => by omega⟩
    · rw [if_neg hb] at h
      obtain ⟨h1, h2, h3, h4⟩ := ih (i + 1) h
      refine ⟨by omega, by omega, h3, fun m hm1 hm2 => ?_⟩
      rcases Nat.eq_or_lt_of_le hm1 with e | e
      · subst e; omega
      · exact h4 m e hm2

theorem keysFrom_zero (s : ADS_set Key) : keysFrom s 0 = keys s := by
  simp [keysFrom, keys]

theorem keysFrom_of_lt (s : ADS_set Key) (i : Nat) (h : i < s.table.length) :
    keysFrom s i = (bucket s i).chain ++ keysFrom s (i + 1) := by
  unfold keysFrom
  rw [List.drop_eq_getElem_cons h, bucket_eq_getElem s i h]
  simp only [List.map_cons, List.flatten_cons]

theorem keysFrom_of_le (s : ADS_set Key) (i : Nat) (h : s.table.length ≤ i) :
    keysFrom s i = [] := by
  simp [keysFrom, List.drop_of_length_le h]

theorem chain_nil_of_sz_zero {hasher : Key → Nat} {s : ADS_set Key} (wf : WF hasher s)
    (j : Nat) (h : (bucket s j).sz = 0) : (bucket s j).chain = [] := by
  by_cases hj : j < s.max_sz
  · have := (wf.2.2.2 j hj).1
    rw [h] at this
    exact List.length_eq_zero.1 this.symm
  · rw [bucket_of_le s j (by rw [wf.2.1]; omega)]
    rfl

theorem keysFrom_skip {hasher : Key → Nat} {s : ADS_set Key} (wf : WF hasher s) (i d : Nat)
    (h : ∀ m, i ≤ m → m < i + d → (bucket s m).sz = 0) :
    keysFrom s i = keysFrom s (i + d) := by
  induction d with
  | zero => rfl
  | succ d ih =>
    rw [ih (fun m h1 h2 => h m h1 (by omega))]
    by_cases hl : i + d < s.table.length
    · rw [keysFrom_of_lt s (i + d) hl, chain_nil_of_sz_zero wf (i + d) (h _ (by omega) (by omega))]
      rfl
    · rw [keysFrom_of_le s (i + d) (by omega), keysFrom_of_le s (i + (d + 1)) (by omega)]

/-- What `findNextNonEmptyLinkedList(start)` tells about the keys from bucket
`start` on. -/
theorem findNext_remaining {hasher : Key → Nat} {s : ADS_set Key} (wf : WF hasher s)
    (start : Nat) :
    Remaining s
      (match findNextNonEmptyLinkedList s start with
        | none => ⟨none, none⟩
        | some j => ⟨some j, firstElement s j⟩)
      (keysFrom s start) := by
  unfold findNextNonEmptyLinkedList
  cases hf : findNextLoop s (s.max_sz - start) start with
  | none =>
    left
    refine ⟨?_, rfl⟩
    rw [keysFrom_skip wf start (s.max_sz - start) (findNextLoop_none s _ _ hf)]
    exact keysFrom_of_le s _ (by rw [wf.2.1]; omega)
  | some j =>
    obtain ⟨h1, h2, h3, h4⟩ := findNextLoop_some s _ _ j hf
    have hj : j < s.max_sz := by omega
    have hlen := (wf.2.2.2 j hj).1
    have hskip : keysFrom s start = keysFrom s j := by
      have := keysFrom_skip wf start (j - start) (fun m hm1 hm2 => h4 m hm1 (by omega))
      rwa [Nat.add_sub_cancel' h1] at this
    have hne : (bucket s j).chain ≠ [] := by
      intro e; rw [e] at hlen; simp at hlen; omega
    have hfirst : firstElement s j = some (j, 0) := by
      unfold firstElement
      cases hc : (bucket s j).chain with
      | nil => exact absurd hc hne
      | cons a l => rfl
    right
    rw [hskip, keysFrom_of_lt s j (by rw [wf.2.1]; exact hj)]
    refine ⟨by simp [hne], j, 0, by simp only [hfirst], hj, ?_, by simp⟩
    rw [← hlen]; exact h3

theorem remaining_begin {hasher : Key → Nat} {s : ADS_set Key} (wf : WF hasher s) :
    Remaining s («begin» s) (keys s) := by
  unfold «begin»
  by_cases h0 : s.sz = 0
  · rw [if_pos h0]
    left
    refine ⟨?_, rfl⟩
    have := wf.size_eq_length
    rw [h0] at this
    exact List.length_eq_zero.1 this.symm
  · rw [if_neg h0, ← keysFrom_zero]
    exact findNext_remaining wf 0

theorem standsAt_step {hasher : Key → Nat} {s : ADS_set Key} (wf : WF hasher s)
    (it : Iterator) (k : Key) (rest : List Key) (h : StandsAt s it (k :: rest)) :
    it ≠ «end» ∧ deref s it = some k ∧ Remaining s (next s it) rest := by
  obtain ⟨i, p, rfl, hi, hp, hR⟩ := h
  rw [List.drop_eq_getElem_cons hp, List.cons_append] at hR
  obtain ⟨hk, hrest⟩ := List.cons.inj hR
  refine ⟨by simp [«end»], ?_, ?_⟩
  · simp [deref, List.getElem?_eq_getElem hp, hk]
  · unfold next
    simp only
    by_cases hn : p + 1 < (bucket s i).chain.length
    · rw [if_pos hn]
      right
      refine ⟨?_, i, p + 1, rfl, hi, hn, hrest⟩
      rw [hrest]
      have : List.drop (p + 1) (bucket s i).chain ≠ [] := by
        intro e
        have := congrArg List.length e
        simp at this
        omega
      simp [this]
    · rw [if_neg hn]
      have : List.drop (p + 1) (bucket s i).chain = [] := List.drop_of_length_le (by omega)
      rw [this, List.nil_append] at hrest
      rw [hrest]
      exact findNext_remaining wf (i + 1)

theorem remaining_walk {hasher : Key → Nat} {s : ADS_set Key} (wf : WF hasher s)
    (R : List Key) (it : Iterator) (h : Remaining s it R) :
    (next s)^[R.length] it = «end» ∧
    (∀ j, j < R.length → (next s)^[j] it ≠ «end») ∧
    visited s it R.length = R.map some := by
  induction R generalizing it with
  | nil =>
    rcases h with ⟨_, h⟩ | ⟨h, _⟩
    · exact ⟨by simpa using h, fun j hj => by simp at hj, by simp [visited]⟩
    · exact absurd rfl h
  | cons k rest ih =>
    rcases h with ⟨h, _⟩ | ⟨_, h⟩
    · cases h
    · obtain ⟨h1, h2, h3⟩ := standsAt_step wf it k rest h
      obtain ⟨i1, i2, i3⟩ := ih (next s it) h3
      refine ⟨?_, ?_, ?_⟩
      · rw [List.length_cons, Function.iterate_succ_apply]; exact i1
      · intro j hj
        cases j with
        | zero => simpa using h1
        | succ j =>
          rw [Function.iterate_succ_apply]
          exact i2 j (by simpa using hj)
      · unfold visited at i3 ⊢
        rw [List.length_cons, List.range_succ_eq_map, List.map_cons, List.map_map,
          List.map_cons]
        rw [← i3]
        simp [h2, Function.comp_def]

/-- C9: on a well-formed set, advancing from `begin()` reaches `end()` after exactly
`size()` steps and not before; the keys dereferenced on the way are the stored keys:
a sequence of length `size()` without repetition that contains exactly the keys `k`
with `count(k) == 1`; for an empty set `begin() == end()`. -/
theorem iteration_complete (hasher : Key → Nat) (s : ADS_set Key) (wf : WF hasher s) :
    (next s)^[size s] («begin» s) = «end» ∧
    (∀ j, j < size s → (next s)^[j] («begin» s) ≠ «end») ∧
    (∃ ks : List Key, visited s («begin» s) (size s) = ks.map some ∧
      ks.length = size s ∧ ks.Nodup ∧ ∀ k, k ∈ ks ↔ count hasher s k = 1) ∧
    (size s = 0 → «begin» s = «end») := by
  have h := remaining_walk wf (keys s) («begin» s) (remaining_begin wf)
  have hsz : size s = (keys s).length := wf.size_eq_length
  rw [hsz]
  refine ⟨h.1, h.2.1, ⟨keys s, h.2.2, rfl, wf.nodup_keys, fun k => ?_⟩, fun h0 => ?_⟩
  · rw [wf.count_eq_one_iff_mem]
  · have := h.1
    rw [h0] at this
    simpa using this

theorem iteration_complete_witness :
    (next (insertList (fun k : Nat => k) (new 7) [3, 10, 4]))^[size
        (insertList (fun k : Nat => k) (new 7) [3, 10, 4])]
      («begin» (insertList (fun k : Nat => k) (new 7) [3, 10, 4])) = «end» ∧
    (∀ j, j < size (insertList (fun k : Nat => k) (new 7) [3, 10, 4]) →
      (next (insertList (fun k : Nat => k) (new 7) [3, 10, 4]))^[j]
        («begin» (insertList (fun k : Nat => k) (new 7) [3, 10, 4])) ≠ «end») ∧
    (∃ ks : List Nat,
      visited (insertList (fun k : Nat => k) (new 7) [3, 10, 4])
        («begin» (insertList (fun k : Nat => k) (new 7) [3, 10, 4]))
        (size (insertList (fun k : Nat => k) (new 7) [3, 10, 4])) = ks.map some ∧
      ks.length = size (insertList (fun k : Nat => k) (new 7) [3, 10, 4]) ∧ ks.Nodup ∧
      ∀ k, k ∈ ks ↔
        count (fun k : Nat => k) (insertList (fun k : Nat => k) (new 7) [3, 10, 4]) k = 1) ∧
    (size (insertList (fun k : Nat => k) (new 7) [3, 10, 4]) = 0 →
      «begin» (insertList (fun k : Nat => k) (new 7) [3, 10, 4]) = «end») :=
  iteration_complete (fun k : Nat => k) (insertList (fun k : Nat => k) (new 7) [3, 10, 4])
    (by decide)

/-! ## Equality of containers -/

theorem eqLoop_spec {hasher : Key → Nat} {lhs : ADS_set Key} (wl : WF hasher lhs)
    (rhs : ADS_set Key) (R : List Key) (it : Iterator) (h : Remaining lhs it R) (fuel : Nat)
    (hfuel : R.length < fuel) :
    eqLoop hasher lhs rhs fuel it = some (decide (∀ k ∈ R, find hasher rhs k ≠ «end»)) := by
  induction R generalizing it fuel with
  | nil =>
    rcases h with ⟨_, h⟩ | ⟨h, _⟩
    · cases fuel with
      | zero => simp at hfuel
      | succ fuel => simp [eqLoop, h]
    · exact absurd rfl h
  | cons k rest ih =>
    rcases h with ⟨h, _⟩ | ⟨_, h⟩
    · cases h
    · obtain ⟨h1, h2, h3⟩ := standsAt_step wl it k rest h
      cases fuel with
      | zero => simp at hfuel
      | succ fuel =>
        unfold eqLoop
        rw [if_pos h1]
        simp only [h2]
        by_cases hk : find hasher rhs k = «end»
        · rw [if_pos hk]
          simp [hk]
        · rw [if_neg hk, ih (next lhs it) h3 fuel (by simpa using hfuel)]
          simp [hk]

theorem eq_spec {hasher : Key → Nat} {lhs : ADS_set Key} (wl : WF hasher lhs)
    (rhs : ADS_set Key) (fuel : Nat) (hfuel : lhs.sz < fuel) :
    eq hasher fuel lhs rhs
      = some (decide (lhs.sz = rhs.sz ∧ ∀ k ∈ keys lhs, find hasher rhs k ≠ «end»)) := by
  unfold eq
  by_cases hs : lhs.sz = rhs.sz
  · rw [if_neg (by simpa using hs),
      eqLoop_spec wl rhs (keys lhs) _ (remaining_begin wl) fuel (by rw [← wl.size_eq_length]; exact hfuel)]
    simp [hs]
  · rw [if_pos hs]
    simp [hs]

theorem same_keys_iff {hasher : Key → Nat} {lhs rhs : ADS_set Key} (wl : WF hasher lhs)
    (wr : WF hasher rhs) :
    (lhs.sz = rhs.sz ∧ ∀ k ∈ keys lhs, find hasher rhs k ≠ «end») ↔
      ∀ k, count hasher lhs k = count hasher rhs k := by
  have hcount : ∀ (t : ADS_set Key), WF hasher t → ∀ k,
      count hasher t k = if k ∈ keys t then 1 else 0 := by
    intro t wt k
    by_cases hm : k ∈ keys t
    · rw [if_pos hm]; exact (wt.count_eq_one_iff_mem k).2 hm
    · rw [if_neg hm, count_eq_zero_iff, ← wt.mem_keys_iff_bucket]; exact hm
  constructor
  · rintro ⟨hs, hsub⟩ k
    have hsub2 : keys lhs ⊆ keys rhs := fun x hx =>
      (wr.mem_keys_iff_bucket x).2 ((find_ne_end_iff hasher rhs x).1 (hsub x hx))
    have hperm : (keys lhs).Perm (keys rhs) :=
      (List.subperm_of_subset wl.nodup_keys hsub2).perm_of_length_le
        (by rw [← wl.size_eq_length, ← wr.size_eq_length, hs])
    rw [hcount lhs wl, hcount rhs wr]
    simp only [hperm.mem_iff]
  · intro hc
    have hmem : ∀ k, k ∈ keys lhs ↔ k ∈ keys rhs := by
      intro k
      have := hc k
      rw [hcount lhs wl, hcount rhs wr] at this
      by_cases h1 : k ∈ keys lhs <;> by_cases h2 : k ∈ keys rhs <;> simp_all
    have hperm := (List.perm_ext_iff_of_nodup wl.nodup_keys wr.nodup_keys).2 hmem
    refine ⟨by rw [wl.size_eq_length, wr.size_eq_length]; exact hperm.length_eq, fun k hk => ?_⟩
    exact (find_ne_end_iff hasher rhs k).2 ((wr.mem_keys_iff_bucket k).1 ((hmem k).1 hk))

theorem wf_insertList (hasher : Key → Nat) (ks : List Key) (s : ADS_set Key)
    (wf : WF hasher s) :
    WF hasher (insertList hasher s ks) ∧
    ∀ k, k ∈ keys (insertList hasher s ks) ↔ k ∈ ks ∨ k ∈ keys s := by
  induction ks generalizing s with
  | nil => exact ⟨wf, fun k => by simp [insertList]⟩
  | cons a ks ih =>
    have h := wf_insert wf a
    rw [insert_fst] at h
    obtain ⟨w2, h2⟩ := ih (insertPrivate hasher s a).1 h.1
    refine ⟨w2, fun k => ?_⟩
    have e : insertList hasher s (a :: ks)
        = insertList hasher (insertPrivate hasher s a).1 ks := rfl
    rw [e, h2 k, h.2 k]
    simp only [List.mem_cons]
    tauto

theorem eq_decides {hasher : Key → Nat} {lhs rhs : ADS_set Key} (wl : WF hasher lhs)
    (wr : WF hasher rhs) (fuel : Nat) (hfuel : lhs.sz < fuel) :
    (eq hasher fuel lhs rhs = some true ↔ ∀ k, count hasher lhs k = count hasher rhs k) ∧
    (eq hasher fuel lhs rhs = some false ↔ ¬ ∀ k, count hasher lhs k = count hasher rhs k) := by
  rw [eq_spec wl rhs fuel hfuel, ← same_keys_iff wl wr]
  simp

theorem size_insertList_le (hasher : Key → Nat) (N : Nat) (hN : 1 ≤ N) (ks : List Key) :
    (insertList hasher (new N) ks).sz ≤ ks.length := by
  obtain ⟨w, hm⟩ := wf_insertList hasher ks (new N) (wf_new hasher N hN)
  rw [w.size_eq_length]
  refine (List.subperm_of_subset w.nodup_keys (fun k hk => ?_)).length_le
  have := (hm k).1 hk
  simpa [keys_new] using this

theorem eq_insertList_of_same_mem {hasher : Key → Nat} (N M : Nat) (hN : 1 ≤ N) (hM : 1 ≤ M)
    (ks ks' : List Key) (hmem : ∀ k, k ∈ ks ↔ k ∈ ks') (fuel : Nat)
    (hfuel : ks.length < fuel) :
    eq hasher fuel (insertList hasher (new N) ks) (insertList hasher (new M) ks')
      = some true := by
  obtain ⟨w1, m1⟩ := wf_insertList hasher ks (new N) (wf_new hasher N hN)
  obtain ⟨w2, m2⟩ := wf_insertList hasher ks' (new M) (wf_new hasher M hM)
  have hsz := size_insertList_le hasher N hN ks
  rw [(eq_decides w1 w2 fuel (Nat.lt_of_le_of_lt hsz hfuel)).1]
  intro k
  have hiff : k ∈ keys (insertList hasher (new N) ks) ↔
      k ∈ keys (insertList hasher (new M) ks') := by
    rw [m1 k, m2 k, keys_new, keys_new, hmem k]
  rw [← w1.count_eq_one_iff_mem, ← w2.count_eq_one_iff_mem] at hiff
  unfold count at hiff ⊢
  split <;> split <;> simp_all

/-- C10: for well-formed sets `lhs` and `rhs` (any capacities, any insertion order),
`lhs == rhs` returns `true` exactly when `count` agrees on every key and `false`
otherwise; `==` is symmetric; `!=` returns the negation of `==`; sets built from the
keys `a, b, c` and from `c, b, a` compare equal; and a set with one key more or one
key less than the other compares unequal. -/
theorem eq_membership_based (hasher : Key → Nat) (lhs rhs : ADS_set Key)
    (wl : WF hasher lhs) (wr : WF hasher rhs) (fuel : Nat)
    (hl : lhs.sz < fuel) (hr : rhs.sz < fuel) :
    (eq hasher fuel lhs rhs = some true ↔ ∀ k, count hasher lhs k = count hasher rhs k) ∧
    (eq hasher fuel lhs rhs = some false ↔ ¬ ∀ k, count hasher lhs k = count hasher rhs k) ∧
    eq hasher fuel rhs lhs = eq hasher fuel lhs rhs ∧
    (ne hasher fuel lhs rhs = some true ↔ eq hasher fuel lhs rhs = some false) ∧
    (ne hasher fuel lhs rhs = some false ↔ eq hasher fuel lhs rhs = some true) ∧
    (∀ a b c : Key,
      eq hasher 4 (insertList hasher (new 7) [a, b, c]) (insertList hasher (new 7) [c, b, a])
        = some true) ∧
    (∀ x, count hasher rhs x = 0 → (∀ k, count hasher lhs k = count hasher rhs k) →
      eq hasher fuel lhs (insert hasher rhs x).1 = some false ∧
      eq hasher (fuel + 1) (insert hasher rhs x).1 lhs = some false) := by
  have h1 := eq_decides wl wr fuel hl
  have h2 := eq_decides wr wl fuel hr
  refine ⟨h1.1, h1.2, ?_, ?_, ?_, ?_, ?_⟩
  · rw [eq_spec wr lhs fuel hr, eq_spec wl rhs fuel hl]
    congr 1
    rw [decide_eq_decide, same_keys_iff wr wl, same_keys_iff wl wr]
    exact ⟨fun h k => (h k).symm, fun h k => (h k).symm⟩
  · unfold ne
    cases eq hasher fuel lhs rhs with
    | none => simp
    | some b => cases b <;> simp
  · unfold ne
    cases eq hasher fuel lhs rhs with
    | none => simp
    | some b => cases b <;> simp
  · intro a b c
    exact eq_insertList_of_same_mem 7 7 (by decide) (by decide) [a, b, c] [c, b, a]
      (fun k => by simp only [List.mem_cons]; tauto) 4 (by simp)
  · intro x hx hsame
    have hf : find hasher rhs x = «end» :=
      (find_eq_end_iff hasher rhs x).2 ((count_eq_zero_iff hasher rhs x).1 hx)
    have hi := insertPrivate_new wr x hf
    rw [← insert_fst] at hi
    have wi := hi.2.1
    have hone : count hasher (insert hasher rhs x).1 x = 1 :=
      (wi.count_eq_one_iff_mem x).2 ((hi.2.2.2.1 x).2 (Or.inl rfl))
    have hne : ¬ ∀ k, count hasher lhs k = count hasher (insert hasher rhs x).1 k := by
      intro hall
      have := hall x
      rw [hsame x, hx, hone] at this
      omega
    have hfuel2 : (insert hasher rhs x).1.sz < fuel + 1 := by
      have := hi.2.2.1
      omega
    refine ⟨(eq_decides wl wi fuel hl).2.2 hne, (eq_decides wi wl (fuel + 1) hfuel2).2.2 ?_⟩
    exact fun hall => hne (fun k => (hall k).symm)

theorem eq_membership_based_witness :
    (eq (fun k : Nat => k) 4 (insertList (fun k : Nat => k) (new 7) [1, 2, 3])
        (insertList (fun k : Nat => k) (new 3) [3, 2, 1]) = some true ↔
      ∀ k, count (fun k : Nat => k) (insertList (fun k : Nat => k) (new 7) [1, 2, 3]) k
        = count (fun k : Nat => k) (insertList (fun k : Nat => k) (new 3) [3, 2, 1]) k) ∧
    (eq (fun k : Nat => k) 4 (insertList (fun k : Nat => k) (new 7) [1, 2, 3])
        (insertList (fun k : Nat => k) (new 3) [3, 2, 1]) = some false ↔
      ¬ ∀ k, count (fun k : Nat => k) (insertList (fun k : Nat => k) (new 7) [1, 2, 3]) k
        = count (fun k : Nat => k) (insertList (fun k : Nat => k) (new 3) [3, 2, 1]) k) ∧
    eq (fun k : Nat => k) 4 (insertList (fun k : Nat => k) (new 3) [3, 2, 1])
        (insertList (fun k : Nat => k) (new 7) [1, 2, 3])
      = eq (fun k : Nat => k) 4 (insertList (fun k : Nat => k) (new 7) [1, 2, 3])
        (insertList (fun k : Nat => k) (new 3) [3, 2, 1]) ∧
    (ne (fun k : Nat => k) 4 (insertList (fun k : Nat => k) (new 7) [1, 2, 3])
        (insertList (fun k : Nat => k) (new 3) [3, 2, 1]) = some true ↔
      eq (fun k : Nat => k) 4 (insertList (fun k : Nat => k) (new 7) [1, 2, 3])
        (insertList (fun k : Nat => k) (new 3) [3, 2, 1]) = some false) ∧
    (ne (fun k : Nat => k) 4 (insertList (fun k : Nat => k) (new 7) [1, 2, 3])
        (insertList (fun k : Nat => k) (new 3) [3, 2, 1]) = some false ↔
      eq (fun k : Nat => k) 4 (insertList (fun k : Nat => k) (new 7) [1, 2, 3])
        (insertList (fun k : Nat => k) (new 3) [3, 2, 1]) = some true) ∧
    (∀ a b c : Nat,
      eq (fun k : Nat => k) 4 (insertList (fun k : Nat => k) (new 7) [a, b, c])
        (insertList (fun k : Nat => k) (new 7) [c, b, a]) = some true) ∧
    (∀ x, count (fun k : Nat => k) (insertList (fun k : Nat => k) (new 3) [3, 2, 1]) x = 0 →
      (∀ k, count (fun k : Nat => k) (insertList (fun k : Nat => k) (new 7) [1, 2, 3]) k
        = count (fun k : Nat => k) (insertList (fun k : Nat => k) (new 3) [3, 2, 1]) k) →
      eq (fun k : Nat => k) 4 (insertList (fun k : Nat => k) (new 7) [1, 2, 3])
        (insert (fun k : Nat => k) (insertList (fun k : Nat => k) (new 3) [3, 2, 1]) x).1
        = some false ∧
      eq (fun k : Nat => k) (4 + 1)
        (insert (fun k : Nat => k) (insertList (fun k : Nat => k) (new 3) [3, 2, 1]) x).1
        (insertList (fun k : Nat => k) (new 7) [1, 2, 3]) = some false) :=
  eq_membership_based (fun k : Nat => k) (insertList (fun k : Nat => k) (new 7) [1, 2, 3])
    (insertList (fun k : Nat => k) (new 3) [3, 2, 1]) (by decide) (by decide) 4
    (by decide) (by decide)

/-! ## Copying a container -/

theorem count_eq_of_mem_iff {hasher : Key → Nat} {s t : ADS_set Key} (ws : WF hasher s)
    (wt : WF hasher t) (k : Key) (h : k ∈ keys s ↔ k ∈ keys t) :
    count hasher s k = count hasher t k := by
  rw [← ws.count_eq_one_iff_mem, ← wt.count_eq_one_iff_mem] at h
  unfold count at h ⊢
  split <;> split <;> simp_all

theorem length_eq_of_mem_iff {hasher : Key → Nat} {s t : ADS_set Key} (ws : WF hasher s)
    (wt : WF hasher t) (h : ∀ k, k ∈ keys s ↔ k ∈ keys t) : s.sz = t.sz := by
  rw [ws.size_eq_length, wt.size_eq_length]
  exact ((List.perm_ext_iff_of_nodup ws.nodup_keys wt.nodup_keys).2 h).length_eq

/-- The range insertion from a well-formed container inserts the keys it has left to
visit, in order, provided the fuel exceeds their number. -/
theorem insertRange_eq_insertList {hasher : Key → Nat} {other : ADS_set Key}
    (wo : WF hasher other) (R : List Key) (it : Iterator) (h : Remaining other it R)
    (fuel : Nat) (hfuel : R.length < fuel) (s : ADS_set Key) :
    insertRange hasher other fuel it s = some (insertList hasher s R) := by
  induction R generalizing it fuel s with
  | nil =>
    rcases h with ⟨_, h⟩ | ⟨h, _⟩
    · cases fuel with
      | zero => simp at hfuel
      | succ fuel => simp [insertRange, h, insertList]
    · exact absurd rfl h
  | cons k rest ih =>
    rcases h with ⟨h, _⟩ | ⟨_, h⟩
    · cases h
    · obtain ⟨h1, h2, h3⟩ := standsAt_step wo it k rest h
      cases fuel with
      | zero => simp at hfuel
      | succ fuel =>
        unfold insertRange
        rw [if_pos h1]
        simp only [h2]
        rw [ih (next other it) h3 fuel (by simpa using hfuel)]
        rfl

theorem copy_eq_insertList {hasher : Key → Nat} {other : ADS_set Key} (wo : WF hasher other)
    (N fuel : Nat) (hfuel : other.sz < fuel) :
    copy hasher N fuel other = some (insertList hasher (new N) (keys other)) :=
  insertRange_eq_insertList wo (keys other) _ (remaining_begin wo) fuel
    (by rw [← wo.size_eq_length]; exact hfuel) (new N)

/-- C11: for every well-formed set `S`, copy construction (a fresh set with `N ≥ 1`
buckets into which the keys of `S.begin() .. S.end()` are inserted) returns a set `C`
that is well formed, compares equal to `S` with `==` in both directions and has the
size of `S`. The copy only reads `S`, whatever its capacity. -/
theorem copy_round_trip (hasher : Key → Nat) (S : ADS_set Key) (wf : WF hasher S)
    (N : Nat) (hN : 1 ≤ N) (fuel : Nat) (hfuel : S.sz < fuel) :
    ∃ C, copy hasher N fuel S = some C ∧ WF hasher C ∧
      eq hasher fuel C S = some true ∧ eq hasher fuel S C = some true ∧
      size C = size S ∧ ∀ k, count hasher C k = count hasher S k := by
  obtain ⟨wc, hm⟩ := wf_insertList hasher (keys S) (new N) (wf_new hasher N hN)
  have hmem : ∀ k, k ∈ keys (insertList hasher (new N) (keys S)) ↔ k ∈ keys S := by
    intro k
    rw [hm k, keys_new]
    simp
  have hsz := length_eq_of_mem_iff wc wf hmem
  have hcount := fun k => count_eq_of_mem_iff wc wf k (hmem k)
  refine ⟨_, copy_eq_insertList wf N fuel hfuel, wc, ?_, ?_, hsz, hcount⟩
  · exact (eq_decides wc wf fuel (by rw [hsz]; exact hfuel)).1.2 hcount
  · exact (eq_decides wf wc fuel hfuel).1.2 (fun k => (hcount k).symm)

theorem copy_round_trip_witness :
    ∃ C, copy (fun k : Nat => k) 7 4
        (erase (fun k : Nat => k) (insertList (fun k : Nat => k) (new 3) [1, 4, 7, 2]) 4).1
        = some C ∧
      WF (fun k : Nat => k) C ∧
      eq (fun k : Nat => k) 4 C
        (erase (fun k : Nat => k) (insertList (fun k : Nat => k) (new 3) [1, 4, 7, 2]) 4).1
        = some true ∧
      eq (fun k : Nat => k) 4
        (erase (fun k : Nat => k) (insertList (fun k : Nat => k) (new 3) [1, 4, 7, 2]) 4).1 C
        = some true ∧
      size C = size
        (erase (fun k : Nat => k) (insertList (fun k : Nat => k) (new 3) [1, 4, 7, 2]) 4).1 ∧
      ∀ k, count (fun k : Nat => k) C k = count (fun k : Nat => k)
        (erase (fun k : Nat => k) (insertList (fun k : Nat => k) (new 3) [1, 4, 7, 2]) 4).1 k :=
  copy_round_trip (fun k : Nat => k)
    (erase (fun k : Nat => k) (insertList (fun k : Nat => k) (new 3) [1, 4, 7, 2]) 4).1
    (by decide) 7 (by decide) 4 (by decide)

/-! ## Bulk insertion -/

theorem insertList_eq_insertAll (hasher : Key → Nat) (ks : List Key) (s : ADS_set Key) :
    insertList hasher s ks = insertAll hasher s ks := by
  induction ks generalizing s with
  | nil => rfl
  | cons a ks ih =>
    show insertList hasher (insertPrivate hasher s a).1 ks
      = insertAll hasher (insert hasher s a).1 ks
    rw [insert_fst, ih]

theorem insertList_new_spec (hasher : Key → Nat) (N : Nat) (hN : 1 ≤ N) (ks : List Key) :
    WF hasher (insertList hasher (new N) ks) ∧
    (∀ k, k ∈ keys (insertList hasher (new N) ks) ↔ k ∈ ks) ∧
    (insertList hasher (new N) ks).sz = ks.toFinset.card := by
  obtain ⟨w, hm⟩ := wf_insertList hasher ks (new N) (wf_new hasher N hN)
  have hmem : ∀ k, k ∈ keys (insertList hasher (new N) ks) ↔ k ∈ ks := by
    intro k
    rw [hm k, keys_new]
    simp
  refine ⟨w, hmem, ?_⟩
  have e : (keys (insertList hasher (new N) ks)).toFinset = ks.toFinset := by
    ext x; simp [hmem x]
  rw [w.size_eq_length, ← List.toFinset_card_of_nodup w.nodup_keys, e]

/-- C12: bulk insertion of a sequence gives the same state as calling the single-key
`insert` on each element in order, from any state; from an empty set with `N ≥ 1`
buckets, `size()` afterwards is the number of distinct keys of the input and
`count(k)` is 1 exactly for the keys of the input; for instance the input
`a, b, a, c` with distinct `a, b, c` gives size 3 and `count(a) == 1`. -/
theorem bulk_insert_spec (hasher : Key → Nat) (s : ADS_set Key) (ks : List Key) :
    insertList hasher s ks = insertAll hasher s ks ∧
    (∀ N, 1 ≤ N →
      size (insertList hasher (new N) ks) = ks.toFinset.card ∧
      ∀ k, count hasher (insertList hasher (new N) ks) k = if k ∈ ks then 1 else 0) ∧
    (∀ a b c : Key, a ≠ b → a ≠ c → b ≠ c →
      size (insertList hasher (new 7) [a, b, a, c]) = 3 ∧
      count hasher (insertList hasher (new 7) [a, b, a, c]) a = 1) := by
  have hcount : ∀ (N : Nat), 1 ≤ N → ∀ (l : List Key) (k : Key),
      count hasher (insertList hasher (new N) l) k = if k ∈ l then 1 else 0 := by
    intro N hN l k
    obtain ⟨w, hmem, _⟩ := insertList_new_spec hasher N hN l
    by_cases hk : k ∈ l
    · rw [if_pos hk]
      exact (w.count_eq_one_iff_mem k).2 ((hmem k).2 hk)
    · rw [if_neg hk, count_eq_zero_iff, ← w.mem_keys_iff_bucket, hmem k]
      exact hk
  refine ⟨insertList_eq_insertAll hasher ks s, fun N hN => ?_, fun a b c hab hac hbc => ?_⟩
  · exact ⟨(insertList_new_spec hasher N hN ks).2.2, hcount N hN ks⟩
  · constructor
    · show (insertList hasher (new 7) [a, b, a, c]).sz = 3
      rw [(insertList_new_spec hasher 7 (by decide) [a, b, a, c]).2.2]
      have e : ([a, b, a, c] : List Key).toFinset = {a, b, c} := by
        ext x; simp; tauto
      rw [e, Finset.card_insert_of_not_mem (by simp [hab, hac]),
        Finset.card_insert_of_not_mem (by simp [hbc]), Finset.card_singleton]
    · rw [hcount 7 (by decide)]
      simp

theorem bulk_insert_spec_witness :
    insertList (fun k : Nat => k) (insertList (fun k : Nat => k) (new 7) [3, 10, 4])
        [10, 20, 10, 30]
      = insertAll (fun k : Nat => k) (insertList (fun k : Nat => k) (new 7) [3, 10, 4])
        [10, 20, 10, 30] ∧
    (∀ N, 1 ≤ N →
      size (insertList (fun k : Nat => k) (new N) [10, 20, 10, 30])
        = ([10, 20, 10, 30] : List Nat).toFinset.card ∧
      ∀ k, count (fun k : Nat => k) (insertList (fun k : Nat => k) (new N) [10, 20, 10, 30]) k
        = if k ∈ [10, 20, 10, 30] then 1 else 0) ∧
    (∀ a b c : Nat, a ≠ b → a ≠ c → b ≠ c →
      size (insertList (fun k : Nat => k) (new 7) [a, b, a, c]) = 3 ∧
      count (fun k : Nat => k) (insertList (fun k : Nat => k) (new 7) [a, b, a, c]) a = 1) :=
  bulk_insert_spec (fun k : Nat => k) (insertList (fun k : Nat => k) (new 7) [3, 10, 4])
    [10, 20, 10, 30]

/-! ## Growth of the capacity -/

theorem insertList_grow {hasher : Key → Nat} (ks : List Key) (s : ADS_set Key)
    (wf : WF hasher s) (hml : s.max_load_factor = 70) (hnd : ks.Nodup)
    (hfresh : ∀ k ∈ ks, k ∉ keys s) :
    ((insertList hasher s ks).sz, (insertList hasher s ks).max_sz)
      = growStep^[ks.length] (s.sz, s.max_sz) := by
  induction ks generalizing s with
  | nil => rfl
  | cons a ks ih =>
    have ha : a ∉ keys s := hfresh a (List.mem_cons_self _ _)
    have hf : find hasher s a = «end» :=
      (find_eq_end_iff hasher s a).2 (fun hm => ha ((wf.mem_keys_iff_bucket a).2 hm))
    obtain ⟨_, w2, hsz, hmem, hcap, hml2⟩ := insertPrivate_new wf a hf
    have hnd2 := List.nodup_cons.1 hnd
    have e : insertList hasher s (a :: ks)
        = insertList hasher (insertPrivate hasher s a).1 ks := rfl
    rw [e, ih (insertPrivate hasher s a).1 w2 (hml2.trans hml) hnd2.2 ?_]
    · rw [List.length_cons, Function.iterate_succ_apply, hsz, hcap, hml]
      rfl
    · intro k hk hk2
      rcases (hmem k).1 hk2 with rfl | h
      · exact hnd2.1 hk
      · exact hfresh k (List.mem_cons_of_mem _ hk) h

theorem capacity_after_distinct (hasher : Key → Nat) (N : Nat) (hN : 1 ≤ N) (ks : List Key)
    (hnd : ks.Nodup) (i : Nat) (hi : i ≤ ks.length) :
    (insertAll hasher (new N) (ks.take i)).max_sz = (growStep^[i] (0, N)).2 := by
  rw [← insertList_eq_insertAll]
  have h := insertList_grow (ks.take i) (new N) (wf_new hasher N hN) rfl
    (hnd.sublist (List.take_sublist i ks)) (fun k _ => by simp [keys_new])
  rw [List.length_take, Nat.min_eq_left hi] at h
  have h2 := congrArg Prod.snd h
  exact h2

/-- C13: an insertion of an absent key into a set with maximal load factor 70, size
`s` and capacity `c` leaves the capacity at `2 * c` when `100 * (s + 1) / c > 70`
(truncating) and at `c` otherwise, for any hash function. From an empty set of
capacity 7, any 5 pairwise distinct keys leave capacity 7 after each of the first
four insertions and 14 after the fifth; any 11 pairwise distinct keys give the
capacities 7, 7, 7, 7, 14, 14, 14, 14, 14, 28, 28 after the successive insertions:
exactly two rehashes and a final capacity of 28. -/
theorem growth_trigger (hasher : Key → Nat) (s : ADS_set Key) (key : Key)
    (hml : s.max_load_factor = 70) (habs : count hasher s key = 0) :
    (insert hasher s key).1.max_sz
      = (if 100 * (size s + 1) / s.max_sz > 70 then 2 * s.max_sz else s.max_sz) ∧
    (∀ ks : List Key, ks.Nodup → ks.length = 5 →
      (∀ i, 1 ≤ i → i ≤ 4 → (insertAll hasher (new 7) (ks.take i)).max_sz = 7) ∧
      (insertAll hasher (new 7) ks).max_sz = 14) ∧
    (∀ ks : List Key, ks.Nodup → ks.length = 11 →
      (List.range 12).map (fun i => (insertAll hasher (new 7) (ks.take i)).max_sz)
        = [7, 7, 7, 7, 7, 14, 14, 14, 14, 14, 28, 28] ∧
      (insertAll hasher (new 7) ks).max_sz = 28) := by
  refine ⟨?_, fun ks hnd hlen => ⟨fun i h1 h4 => ?_, ?_⟩, fun ks hnd hlen => ⟨?_, ?_⟩⟩
  · have hf : find hasher s key = «end» :=
      (find_eq_end_iff hasher s key).2 ((count_eq_zero_iff hasher s key).1 habs)
    rw [insert_fst, insertPrivate_absent hasher s key hf]
    have hov : isOverloaded (added hasher s key) = true ↔ 100 * (s.sz + 1) / s.max_sz > 70 := by
      simp [isOverloaded, added, hml]
    unfold size
    by_cases ho : isOverloaded (added hasher s key) = true
    · rw [if_pos ho, if_pos (hov.1 ho)]
      show s.max_sz * 2 = 2 * s.max_sz
      omega
    · rw [if_neg ho, if_neg (fun c => ho (hov.2 c))]
      rfl
  · rw [capacity_after_distinct hasher 7 (by decide) ks hnd i (by omega)]
    interval_cases i <;> rfl
  · have := capacity_after_distinct hasher 7 (by decide) ks hnd 5 (by omega)
    rw [← hlen, List.take_length] at this
    rw [this, hlen]
    rfl
  · have e : (List.range 12).map (fun i => (insertAll hasher (new 7) (ks.take i)).max_sz)
        = (List.range 12).map (fun i => (growStep^[i] (0, 7)).2) := by
      apply List.map_congr_left
      intro i hi
      rw [List.mem_range] at hi
      exact capacity_after_distinct hasher 7 (by decide) ks hnd i (by omega)
    rw [e]
    rfl
  · have := capacity_after_distinct hasher 7 (by decide) ks hnd 11 (by omega)
    rw [← hlen, List.take_length] at this
    rw [this, hlen]
    rfl

theorem growth_trigger_witness :
    (insert (fun k : Nat => k) (insertList (fun k : Nat => k) (new 7) [1, 2, 3, 4]) 5).1.max_sz
      = (if 100 * (size (insertList (fun k : Nat => k) (new 7) [1, 2, 3, 4]) + 1) /
            (insertList (fun k : Nat => k) (new 7) [1, 2, 3, 4]).max_sz > 70
          then 2 * (insertList (fun k : Nat => k) (new 7) [1, 2, 3, 4]).max_sz
          else (insertList (fun k : Nat => k) (new 7) [1, 2, 3, 4]).max_sz) ∧
    (∀ ks : List Nat, ks.Nodup → ks.length = 5 →
      (∀ i, 1 ≤ i → i ≤ 4 → (insertAll (fun k : Nat => k) (new 7) (ks.take i)).max_sz = 7) ∧
      (insertAll (fun k : Nat => k) (new 7) ks).max_sz = 14) ∧
    (∀ ks : List Nat, ks.Nodup → ks.length = 11 →
      (List.range 12).map (fun i => (insertAll (fun k : Nat => k) (new 7) (ks.take i)).max_sz)
        = [7, 7, 7, 7, 7, 14, 14, 14, 14, 14, 28, 28] ∧
      (insertAll (fun k : Nat => k) (new 7) ks).max_sz = 28) :=
  growth_trigger (fun k : Nat => k) (insertList (fun k : Nat => k) (new 7) [1, 2, 3, 4]) 5
    (by decide) (by decide)

/-! ## `clear` -/

theorem clearLoop_spec (t : List (linked_list Key)) (n : Nat) (hn : n ≤ t.length) :
    ((List.range n).foldl
        (fun t i => t.set i (t.getD i linked_list.empty).clear) t).length = t.length ∧
    ∀ j, ((List.range n).foldl
        (fun t i => t.set i (t.getD i linked_list.empty).clear) t).getD j linked_list.empty
      = if j < n then linked_list.empty else t.getD j linked_list.empty := by
  induction n with
  | zero => simp
  | succ n ih =>
    obtain ⟨h1, h2⟩ := ih (by omega)
    rw [List.range_succ, List.foldl_append]
    simp only [List.foldl_cons, List.foldl_nil]
    refine ⟨by rw [List.length_set, h1], fun j => ?_⟩
    by_cases e : n = j
    · subst e
      rw [getD_set_eq _ _ _ _ (by rw [h1]; omega)]
      simp [linked_list.clear, linked_list.empty]
    · rw [getD_set_ne _ _ _ _ _ e, h2 j]
      by_cases hj : j < n
      · simp [hj, Nat.lt_succ_of_lt hj]
      · have : ¬ j < n + 1 := by omega
        simp [hj, this]

theorem bucket_clear (s : ADS_set Key) (hlen : s.table.length = s.max_sz) (i : Nat) :
    bucket (clear s) i = linked_list.empty := by
  have h := (clearLoop_spec s.table s.max_sz (by omega)).2 i
  unfold bucket clear
  simp only
  rw [h]
  by_cases hi : i < s.max_sz
  · rw [if_pos hi]
  · rw [if_neg hi]
    have := bucket_of_le s i (by omega)
    exact this

theorem clear_table (s : ADS_set Key) (hlen : s.table.length = s.max_sz) :
    (clear s).table = List.replicate s.max_sz linked_list.empty := by
  have hl : (clear s).table.length = s.max_sz := by
    have := (clearLoop_spec s.table s.max_sz (by omega)).1
    rw [hlen] at this
    exact this
  apply List.ext_getElem
  · rw [hl, List.length_replicate]
  · intro i h1 h2
    rw [← bucket_eq_getElem (clear s) i h1, bucket_clear s hlen i]
    simp

theorem find_clear (hasher : Key → Nat) (s : ADS_set Key) (hlen : s.table.length = s.max_sz)
    (k : Key) : find hasher (clear s) k = «end» := by
  rw [find_eq_end_iff, bucket_clear s hlen]
  simp [linked_list.empty]

/-- C14: for every set (its table holding `max_sz` buckets), after `clear()` every
bucket has an empty chain and count 0, `size()` is 0, `empty()` is true,
`begin() == end()`, `find(k) == end()` for every key, and the capacity and the number
of buckets are what they were. -/
theorem clear_spec (hasher : Key → Nat) (s : ADS_set Key)
    (hlen : s.table.length = s.max_sz) :
    (∀ i, (bucket (clear s) i).chain = [] ∧ (bucket (clear s) i).sz = 0) ∧
    (clear s).table = List.replicate s.max_sz linked_list.empty ∧
    size (clear s) = 0 ∧ empty (clear s) = true ∧
    «begin» (clear s) = «end» ∧
    (∀ k, find hasher (clear s) k = «end» ∧ count hasher (clear s) k = 0) ∧
    (clear s).max_sz = s.max_sz ∧ (clear s).table.length = s.table.length := by
  refine ⟨fun i => ?_, clear_table s hlen, rfl, rfl, rfl, fun k => ?_, rfl, ?_⟩
  · rw [bucket_clear s hlen i]
    exact ⟨rfl, rfl⟩
  · have h := find_clear hasher s hlen k
    refine ⟨h, ?_⟩
    unfold count
    simp [h]
  · rw [clear_table s hlen, List.length_replicate, hlen]

theorem clear_spec_witness :
    (∀ i, (bucket (clear (insertList (fun k : Nat => k) (new 7) [1, 8, 2, 3, 4])) i).chain = [] ∧
      (bucket (clear (insertList (fun k : Nat => k) (new 7) [1, 8, 2, 3, 4])) i).sz = 0) ∧
    (clear (insertList (fun k : Nat => k) (new 7) [1, 8, 2, 3, 4])).table
      = List.replicate (insertList (fun k : Nat => k) (new 7) [1, 8, 2, 3, 4]).max_sz
          linked_list.empty ∧
    size (clear (insertList (fun k : Nat => k) (new 7) [1, 8, 2, 3, 4])) = 0 ∧
    empty (clear (insertList (fun k : Nat => k) (new 7) [1, 8, 2, 3, 4])) = true ∧
    «begin» (clear (insertList (fun k : Nat => k) (new 7) [1, 8, 2, 3, 4])) = «end» ∧
    (∀ k, find (fun k : Nat => k)
        (clear (insertList (fun k : Nat => k) (new 7) [1, 8, 2, 3, 4])) k = «end» ∧
      count (fun k : Nat => k)
        (clear (insertList (fun k : Nat => k) (new 7) [1, 8, 2, 3, 4])) k = 0) ∧
    (clear (insertList (fun k : Nat => k) (new 7) [1, 8, 2, 3, 4])).max_sz
      = (insertList (fun k : Nat => k) (new 7) [1, 8, 2, 3, 4]).max_sz ∧
    (clear (insertList (fun k : Nat => k) (new 7) [1, 8, 2, 3, 4])).table.length
      = (insertList (fun k : Nat => k) (new 7) [1, 8, 2, 3, 4]).table.length :=
  clear_spec (fun k : Nat => k) (insertList (fun k : Nat => k) (new 7) [1, 8, 2, 3, 4])
    (by decide)

/-! ## `swap` -/

theorem findNextLoop_congr (s t : ADS_set Key) (ht : s.table = t.table) :
    findNextLoop s = findNextLoop t := by
  funext fuel i
  induction fuel generalizing i with
  | zero => rfl
  | succ fuel ih => simp only [findNextLoop, bucket, ht, ih]

theorem next_congr (s t : ADS_set Key) (ht : s.table = t.table) (hm : s.max_sz = t.max_sz) :
    next s = next t := by
  funext it
  unfold next findNextNonEmptyLinkedList firstElement bucket
  rw [ht, hm, findNextLoop_congr s t ht]

theorem begin_congr (s t : ADS_set Key) (ht : s.table = t.table) (hs : s.sz = t.sz)
    (hm : s.max_sz = t.max_sz) : «begin» s = «begin» t := by
  unfold «begin» findNextNonEmptyLinkedList firstElement bucket
  rw [ht, hm, hs, findNextLoop_congr s t ht]

theorem deref_congr (s t : ADS_set Key) (ht : s.table = t.table) : deref s = deref t := by
  funext it
  unfold deref bucket
  rw [ht]

theorem find_congr (hasher : Key → Nat) (s t : ADS_set Key) (ht : s.table = t.table)
    (hm : s.max_sz = t.max_sz) : find hasher s = find hasher t := by
  funext k
  unfold find hash bucket
  rw [ht, hm]

theorem visited_congr (s t : ADS_set Key) (ht : s.table = t.table) (hs : s.sz = t.sz)
    (hm : s.max_sz = t.max_sz) (n : Nat) :
    visited s («begin» s) n = visited t («begin» t) n := by
  unfold visited
  rw [next_congr s t ht hm, deref_congr s t ht, begin_congr s t ht hs hm]

/-- C15: after `a.swap(b)` the bucket array, size and capacity of `a` are those `b`
had and those of `b` are those `a` had (the whole state when both have the same
`max_load_factor`); hence `find`, `count`, `size` and the traversal from `begin()`
are exchanged, and swapping twice restores both sets. -/
theorem swap_exchanges (hasher : Key → Nat) (a b : ADS_set Key) :
    ((swap a b).1.table = b.table ∧ (swap a b).1.sz = b.sz ∧
      (swap a b).1.max_sz = b.max_sz) ∧
    ((swap a b).2.table = a.table ∧ (swap a b).2.sz = a.sz ∧
      (swap a b).2.max_sz = a.max_sz) ∧
    (a.max_load_factor = b.max_load_factor → (swap a b).1 = b ∧ (swap a b).2 = a) ∧
    (∀ k, find hasher (swap a b).1 k = find hasher b k ∧
      find hasher (swap a b).2 k = find hasher a k ∧
      count hasher (swap a b).1 k = count hasher b k ∧
      count hasher (swap a b).2 k = count hasher a k) ∧
    (size (swap a b).1 = size b ∧ size (swap a b).2 = size a) ∧
    (keys (swap a b).1 = keys b ∧ keys (swap a b).2 = keys a) ∧
    (∀ n, visited (swap a b).1 («begin» (swap a b).1) n = visited b («begin» b) n ∧
      visited (swap a b).2 («begin» (swap a b).2) n = visited a («begin» a) n) ∧
    swap (swap a b).1 (swap a b).2 = (a, b) := by
  have f1 := find_congr hasher (swap a b).1 b rfl rfl
  have f2 := find_congr hasher (swap a b).2 a rfl rfl
  refine ⟨⟨rfl, rfl, rfl⟩, ⟨rfl, rfl, rfl⟩, fun h => ?_, fun k => ?_, ⟨rfl, rfl⟩, ⟨rfl, rfl⟩,
    fun n => ?_, rfl⟩
  · obtain ⟨t1, m1, s1, c1⟩ := a
    obtain ⟨t2, m2, s2, c2⟩ := b
    have h2 : m1 = m2 := h
    subst h2
    exact ⟨rfl, rfl⟩
  · refine ⟨congrFun f1 k, congrFun f2 k, ?_, ?_⟩
    · unfold count; rw [f1]
    · unfold count; rw [f2]
  · exact ⟨visited_congr (swap a b).1 b rfl rfl rfl n, visited_congr (swap a b).2 a rfl rfl rfl n⟩

theorem swap_exchanges_witness :
    (swap (insertList (fun k : Nat => k) (new 7) [1, 2, 3, 4, 5])
        (insertList (fun k : Nat => k) (new 7) [9])).1
      = insertList (fun k : Nat => k) (new 7) [9] ∧
    (swap (insertList (fun k : Nat => k) (new 7) [1, 2, 3, 4, 5])
        (insertList (fun k : Nat => k) (new 7) [9])).2
      = insertList (fun k : Nat => k) (new 7) [1, 2, 3, 4, 5] :=
  (swap_exchanges (fun k : Nat => k) (insertList (fun k : Nat => k) (new 7) [1, 2, 3, 4, 5])
    (insertList (fun k : Nat => k) (new 7) [9])).2.2.1 (by decide)

/-! ## Assignment -/

theorem keys_clear (s : ADS_set Key) (hlen : s.table.length = s.max_sz) :
    keys (clear s) = [] := by
  unfold keys
  rw [clear_table s hlen]
  simp [linked_list.empty]

theorem wf_clear {hasher : Key → Nat} {s : ADS_set Key} (wf : WF hasher s) :
    WF hasher (clear s) := by
  have hlen := wf.2.1
  refine ⟨wf.1, ?_, ?_, fun i _ => ?_⟩
  · rw [clear_table s hlen, List.length_replicate]; rfl
  · rw [clear_table s hlen]
    simp [clear, linked_list.empty]
  · rw [bucket_clear s hlen i]
    simp [linked_list.empty]

theorem wf_insertPrivate {hasher : Key → Nat} {s : ADS_set Key} (wf : WF hasher s)
    (key : Key) : WF hasher (insertPrivate hasher s key).1 := by
  rw [← insert_fst]
  exact (wf_insert wf key).1

theorem wf_insertRange (hasher : Key → Nat) (other : ADS_set Key) (fuel : Nat)
    (it : Iterator) (s s' : ADS_set Key) (wf : WF hasher s)
    (hr : insertRange hasher other fuel it s = some s') : WF hasher s' := by
  induction fuel generalizing it s with
  | zero => simp [insertRange] at hr
  | succ fuel ih =>
    unfold insertRange at hr
    by_cases hit : it ≠ «end»
    · rw [if_pos hit] at hr
      cases hd : deref other it with
      | none => simp [hd] at hr
      | some key =>
        simp only [hd] at hr
        exact ih _ _ (wf_insertPrivate wf key) hr
    · rw [if_neg hit] at hr
      cases hr
      exact wf

/-- Copy assignment from a distinct well-formed container: the target ends up well
formed and holds exactly the keys of the source. -/
theorem assign_distinct {hasher : Key → Nat} {T S : ADS_set Key} (wt : WF hasher T)
    (ws : WF hasher S) (fuel : Nat) (hfuel : S.sz < fuel) :
    assign hasher fuel T S = some (insertList hasher (clear T) (keys S)) ∧
    WF hasher (insertList hasher (clear T) (keys S)) ∧
    (∀ k, k ∈ keys (insertList hasher (clear T) (keys S)) ↔ k ∈ keys S) := by
  obtain ⟨w, hm⟩ := wf_insertList hasher (keys S) (clear T) (wf_clear wt)
  refine ⟨insertRange_eq_insertList ws (keys S) _ (remaining_begin ws) fuel
    (by rw [← ws.size_eq_length]; exact hfuel) (clear T), w, fun k => ?_⟩
  rw [hm k, keys_clear T wt.2.1]
  simp

/-- The code at self-assignment: `clear()` runs first, the range read afterwards is
empty, and the container is left cleared. -/
theorem assignSelf_eq_clear (hasher : Key → Nat) (s : ADS_set Key) (fuel : Nat) :
    assignSelf hasher (fuel + 1) s = some (clear s) := by
  unfold assignSelf insertRange
  have : «begin» (clear s) = «end» := rfl
  rw [this]
  simp

/-- C16 (the code at the failing input): assigning the set holding 1, 2, 3 to itself
leaves it empty (size 0, `count(1) == 0`), although it had size 3 and `count(1) == 1`
before; the resulting set does not compare equal to the former contents. -/
theorem self_assignment_loses_keys :
    assignSelf (fun k : Nat => k) 4 (insertList (fun k : Nat => k) (new 7) [1, 2, 3])
      = some (new 7) ∧
    size (insertList (fun k : Nat => k) (new 7) [1, 2, 3]) = 3 ∧
    count (fun k : Nat => k) (insertList (fun k : Nat => k) (new 7) [1, 2, 3]) 1 = 1 ∧
    size (new 7 : ADS_set Nat) = 0 ∧
    count (fun k : Nat => k) (new 7 : ADS_set Nat) 1 = 0 ∧
    eq (fun k : Nat => k) 4 (new 7)
      (insertList (fun k : Nat => k) (new 7) [1, 2, 3]) = some false := by
  decide

/-! ## The capacity over a container's lifetime -/

theorem cap_insertPrivate (hasher : Key → Nat) (s : ADS_set Key) (key : Key) :
    (insertPrivate hasher s key).1.max_sz = s.max_sz ∨
    (insertPrivate hasher s key).1.max_sz = s.max_sz * 2 := by
  by_cases hf : find hasher s key ≠ «end»
  · rw [insertPrivate_present hasher s key hf]
    exact Or.inl rfl
  · have hf2 : find hasher s key = «end» := by simpa using hf
    rw [insertPrivate_absent hasher s key hf2]
    by_cases ho : isOverloaded (added hasher s key) = true
    · rw [if_pos ho]; exact Or.inr rfl
    · rw [if_neg ho]; exact Or.inl rfl

theorem cap_insertPrivate_pow (hasher : Key → Nat) (s : ADS_set Key) (key : Key) :
    ∃ j, (insertPrivate hasher s key).1.max_sz = s.max_sz * 2 ^ j := by
  rcases cap_insertPrivate hasher s key with h | h
  · exact ⟨0, by rw [h]; simp⟩
  · exact ⟨1, by rw [h]; simp⟩

theorem cap_insertList (hasher : Key → Nat) (ks : List Key) (s : ADS_set Key) :
    ∃ j, (insertList hasher s ks).max_sz = s.max_sz * 2 ^ j := by
  induction ks generalizing s with
  | nil => exact ⟨0, by simp [insertList]⟩
  | cons a ks ih =>
    obtain ⟨j1, h1⟩ := cap_insertPrivate_pow hasher s a
    obtain ⟨j2, h2⟩ := ih (insertPrivate hasher s a).1
    refine ⟨j1 + j2, ?_⟩
    have e : insertList hasher s (a :: ks)
        = insertList hasher (insertPrivate hasher s a).1 ks := rfl
    rw [e, h2, h1, pow_add, Nat.mul_assoc]

theorem cap_insertRange (hasher : Key → Nat) (other : ADS_set Key) (fuel : Nat)
    (it : Iterator) (s s' : ADS_set Key)
    (hr : insertRange hasher other fuel it s = some s') :
    ∃ j, s'.max_sz = s.max_sz * 2 ^ j := by
  induction fuel generalizing it s with
  | zero => simp [insertRange] at hr
  | succ fuel ih =>
    unfold insertRange at hr
    by_cases hit : it ≠ «end»
    · rw [if_pos hit] at hr
      cases hd : deref other it with
      | none => simp [hd] at hr
      | some key =>
        simp only [hd] at hr
        obtain ⟨j1, h1⟩ := cap_insertPrivate_pow hasher s key
        obtain ⟨j2, h2⟩ := ih _ _ hr
        exact ⟨j1 + j2, by rw [h2, h1, pow_add, Nat.mul_assoc]⟩
    · rw [if_neg hit] at hr
      cases hr
      exact ⟨0, by simp⟩

theorem cap_erase (hasher : Key → Nat) (s : ADS_set Key) (key : Key) :
    (erase hasher s key).1.max_sz = s.max_sz := by
  unfold erase
  split <;> rfl

/-- C17 (as stated, refuted): `swap` can lower a container's capacity. A set that
grew to capacity 14 has capacity 7 after being swapped with a fresh set. -/
theorem swap_lowers_capacity :
    (insertList (fun k : Nat => k) (new 7) [1, 2, 3, 4, 5]).max_sz = 14 ∧
    (swap (insertList (fun k : Nat => k) (new 7) [1, 2, 3, 4, 5]) (new 7)).1.max_sz = 7 ∧
    ¬ ((insertList (fun k : Nat => k) (new 7) [1, 2, 3, 4, 5]).max_sz ≤
      (swap (insertList (fun k : Nat => k) (new 7) [1, 2, 3, 4, 5]) (new 7)).1.max_sz) := by
  decide

/-- C17 (amended): for insert, bulk insert (of a sequence or of another container's
range), erase, clear and the assignments, the capacity after the operation is the
capacity before times a power of two, hence never smaller: a single insert keeps it
or doubles it once, erase and clear keep it. `swap` gives each container the capacity
of the other. -/
theorem capacity_changes (hasher : Key → Nat) (s : ADS_set Key) :
    (∀ key, (insert hasher s key).1.max_sz = s.max_sz ∨
      (insert hasher s key).1.max_sz = s.max_sz * 2) ∧
    (∀ ks, s.max_sz ≤ (insertList hasher s ks).max_sz ∧
      ∃ j, (insertList hasher s ks).max_sz = s.max_sz * 2 ^ j) ∧
    (∀ other fuel s', insertRange hasher other fuel («begin» other) s = some s' →
      s.max_sz ≤ s'.max_sz ∧ ∃ j, s'.max_sz = s.max_sz * 2 ^ j) ∧
    (∀ key, (erase hasher s key).1.max_sz = s.max_sz) ∧
    (clear s).max_sz = s.max_sz ∧
    (∀ other fuel s', assign hasher fuel s other = some s' →
      s.max_sz ≤ s'.max_sz ∧ ∃ j, s'.max_sz = s.max_sz * 2 ^ j) ∧
    (∀ fuel s', assignSelf hasher fuel s = some s' → s'.max_sz = s.max_sz) ∧
    (∀ ilist, s.max_sz ≤ (assignList hasher s ilist).max_sz ∧
      ∃ j, (assignList hasher s ilist).max_sz = s.max_sz * 2 ^ j) ∧
    (∀ other, (swap s other).1.max_sz = other.max_sz ∧
      (swap s other).2.max_sz = s.max_sz) := by
  have hle : ∀ (a b : Nat), (∃ j, b = a * 2 ^ j) → a ≤ b ∧ ∃ j, b = a * 2 ^ j := by
    rintro a b ⟨j, rfl⟩
    exact ⟨Nat.le_mul_of_pos_right a (Nat.two_pow_pos j), j, rfl⟩
  refine ⟨fun key => ?_, fun ks => hle _ _ (cap_insertList hasher ks s),
    fun other fuel s' h => ?_,
    fun key => cap_erase hasher s key, rfl, fun other fuel s' h => ?_, fun fuel s' h => ?_,
    fun ilist => ?_, fun other => ⟨rfl, rfl⟩⟩
  · rw [insert_fst]
    exact cap_insertPrivate hasher s key
  · exact hle _ _ (cap_insertRange hasher other fuel _ s s' h)
  · exact hle _ _ (cap_insertRange hasher other fuel _ (clear s) s' h)
  · cases fuel with
    | zero => simp [assignSelf, insertRange] at h
    | succ fuel =>
      rw [assignSelf_eq_clear] at h
      cases h
      rfl
  · exact hle _ _ (cap_insertList hasher ilist (clear s))

theorem capacity_changes_witness :
    (insertList (fun k : Nat => k) (new 7) [1, 2, 3]).max_sz ≤
      (insertList (fun k : Nat => k) (new 14) [1, 2, 3, 4, 5, 6]).max_sz ∧
    ∃ j, (insertList (fun k : Nat => k) (new 14) [1, 2, 3, 4, 5, 6]).max_sz
      = (insertList (fun k : Nat => k) (new 7) [1, 2, 3]).max_sz * 2 ^ j :=
  (capacity_changes (fun k : Nat => k) (insertList (fun k : Nat => k) (new 7) [1, 2, 3])).2.2.1
    (insertList (fun k : Nat => k) (new 7) [4, 5, 6]) 4
    (insertList (fun k : Nat => k) (new 14) [1, 2, 3, 4, 5, 6]) (by decide)

/-! ## Invariants of the reachable states -/

theorem wf_congr (hasher : Key → Nat) (s t : ADS_set Key) (ht : s.table = t.table)
    (hs : s.sz = t.sz) (hm : s.max_sz = t.max_sz) (wt : WF hasher t) : WF hasher s := by
  unfold WF bucket at *
  rw [ht, hs, hm]
  exact wt

theorem wf_of_reachable (hasher : Key → Nat) (N : Nat) (hN : 1 ≤ N) (s : ADS_set Key)
    (hr : Reachable hasher N s) : WF hasher s := by
  induction hr with
  | new => exact wf_new hasher N hN
  | insert key _ ih => exact (wf_insert ih key).1
  | insertList ks _ ih => exact (wf_insertList hasher ks _ ih).1
  | insertRange fuel _ _ he ih _ => exact wf_insertRange hasher _ fuel _ _ _ ih he
  | erase key _ ih => exact (wf_erase ih key).1
  | clear _ ih => exact wf_clear ih
  | swap_this _ _ _ ih2 => exact wf_congr hasher _ _ rfl rfl rfl ih2
  | swap_other _ _ ih1 _ => exact wf_congr hasher _ _ rfl rfl rfl ih1
  | assign fuel _ _ he ih _ => exact wf_insertRange hasher _ fuel _ _ _ (wf_clear ih) he
  | assignSelf fuel _ he ih => exact wf_insertRange hasher _ fuel _ _ _ (wf_clear ih) he
  | assignList ks _ ih => exact (wf_insertList hasher ks _ (wf_clear ih)).1

theorem WF.placement {hasher : Key → Nat} {s : ADS_set Key} (wf : WF hasher s) (i : Nat)
    (k : Key) (hk : k ∈ (bucket s i).chain) : hash hasher s k = i := by
  by_cases hi : i < s.max_sz
  · exact (wf.2.2.2 i hi).2.2 k hk
  · rw [bucket_of_le s i (by rw [wf.2.1]; omega)] at hk
    simp [linked_list.empty] at hk

theorem WF.counts {hasher : Key → Nat} {s : ADS_set Key} (wf : WF hasher s) (i : Nat) :
    (bucket s i).sz = (bucket s i).chain.length := by
  by_cases hi : i < s.max_sz
  · exact (wf.2.2.2 i hi).1
  · rw [bucket_of_le s i (by rw [wf.2.1]; omega)]
    rfl

/-- C18: in every state reachable from an empty set (`N ≥ 1` buckets) by insert, bulk
insert, erase, clear, swap and assignment, every key in the chain of bucket `i`
satisfies `hash(key) mod capacity == i`; the same holds in the state `rehash(n)`
returns for any `n ≥ 1`; so a key is stored somewhere in the table exactly when it is
in the one bucket `find` scans, that is, exactly when `find` succeeds. -/
theorem bucket_placement (hasher : Key → Nat) (N : Nat) (hN : 1 ≤ N) (s : ADS_set Key)
    (hr : Reachable hasher N s) :
    (∀ i k, k ∈ (bucket s i).chain → hasher k % s.max_sz = i) ∧
    (∀ n, 1 ≤ n → ∀ i k, k ∈ (bucket (rehash hasher s n) i).chain →
      hasher k % (rehash hasher s n).max_sz = i) ∧
    (∀ k, k ∈ keys s ↔ k ∈ (bucket s (hash hasher s k)).chain) ∧
    (∀ k, k ∈ keys s ↔ find hasher s k ≠ «end») := by
  have wf := wf_of_reachable hasher N hN s hr
  refine ⟨fun i k hk => wf.placement i k hk,
    fun n hn i k hk => (wf_rehash wf n hn).placement i k hk,
    fun k => wf.mem_keys_iff_bucket k, fun k => ?_⟩
  rw [find_ne_end_iff]
  exact wf.mem_keys_iff_bucket k

theorem bucket_placement_witness :
    (∀ i k, k ∈ (bucket (erase (fun k : Nat => k)
        (insertList (fun k : Nat => k) (new 7) [1, 8, 2, 3, 4]) 8).1 i).chain →
      (fun k : Nat => k) k % (erase (fun k : Nat => k)
        (insertList (fun k : Nat => k) (new 7) [1, 8, 2, 3, 4]) 8).1.max_sz = i) ∧
    (∀ n, 1 ≤ n → ∀ i k, k ∈ (bucket (rehash (fun k : Nat => k) (erase (fun k : Nat => k)
        (insertList (fun k : Nat => k) (new 7) [1, 8, 2, 3, 4]) 8).1 n) i).chain →
      (fun k : Nat => k) k % (rehash (fun k : Nat => k) (erase (fun k : Nat => k)
        (insertList (fun k : Nat => k) (new 7) [1, 8, 2, 3, 4]) 8).1 n).max_sz = i) ∧
    (∀ k, k ∈ keys (erase (fun k : Nat => k)
        (insertList (fun k : Nat => k) (new 7) [1, 8, 2, 3, 4]) 8).1 ↔
      k ∈ (bucket (erase (fun k : Nat => k)
          (insertList (fun k : Nat => k) (new 7) [1, 8, 2, 3, 4]) 8).1
        (hash (fun k : Nat => k) (erase (fun k : Nat => k)
          (insertList (fun k : Nat => k) (new 7) [1, 8, 2, 3, 4]) 8).1 k)).chain) ∧
    (∀ k, k ∈ keys (erase (fun k : Nat => k)
        (insertList (fun k : Nat => k) (new 7) [1, 8, 2, 3, 4]) 8).1 ↔
      find (fun k : Nat => k) (erase (fun k : Nat => k)
        (insertList (fun k : Nat => k) (new 7) [1, 8, 2, 3, 4]) 8).1 k ≠ «end») :=
  bucket_placement (fun k : Nat => k) 7 (by decide)
    (erase (fun k : Nat => k) (insertList (fun k : Nat => k) (new 7) [1, 8, 2, 3, 4]) 8).1
    (Reachable.erase 8 (Reachable.insertList [1, 8, 2, 3, 4] Reachable.new))

/-- C19: in every state reachable from an empty set (`N ≥ 1` buckets) by insert, bulk
insert, erase, clear, swap and assignment, and in the state `rehash(n)` makes of it
for `n ≥ 1`, each bucket's stored count is the number of nodes of its chain and `sz`
is the sum of the bucket counts; when `size() > 0`, `begin()` finds a non-empty
bucket `i < max_sz` (never the sentinel index) and stands on its first node. -/
theorem count_invariants (hasher : Key → Nat) (N : Nat) (hN : 1 ≤ N) (s : ADS_set Key)
    (hr : Reachable hasher N s) :
    (∀ i, (bucket s i).sz = (bucket s i).chain.length) ∧
    s.sz = (s.table.map (fun l => l.sz)).sum ∧
    (∀ n, 1 ≤ n →
      (∀ i, (bucket (rehash hasher s n) i).sz = (bucket (rehash hasher s n) i).chain.length) ∧
      (rehash hasher s n).sz = ((rehash hasher s n).table.map (fun l => l.sz)).sum) ∧
    (0 < size s → ∃ i, findNextNonEmptyLinkedList s 0 = some i ∧ i < s.max_sz ∧
      0 < (bucket s i).sz ∧ «begin» s = ⟨some i, some (i, 0)⟩) := by
  have wf := wf_of_reachable hasher N hN s hr
  refine ⟨fun i => wf.counts i, wf.2.2.1,
    fun n hn => ⟨fun i => (wf_rehash wf n hn).counts i, (wf_rehash wf n hn).2.2.1⟩,
    fun hpos => ?_⟩
  have hpos2 : s.sz ≠ 0 := by
    unfold size at hpos
    omega
  cases hf : findNextNonEmptyLinkedList s 0 with
  | none =>
    exfalso
    have hnone := findNextLoop_none s (s.max_sz - 0) 0 hf
    have hk : keysFrom s 0 = [] := by
      rw [keysFrom_skip wf 0 (s.max_sz - 0) hnone]
      exact keysFrom_of_le s _ (by rw [wf.2.1]; omega)
    rw [keysFrom_zero] at hk
    have := wf.size_eq_length
    rw [hk] at this
    exact hpos2 this
  | some i =>
    obtain ⟨_, h2, h3, _⟩ := findNextLoop_some s (s.max_sz - 0) 0 i hf
    have hne : (bucket s i).chain ≠ [] := by
      intro e
      have := wf.counts i
      rw [e] at this
      simp at this
      omega
    have hfirst : firstElement s i = some (i, 0) := by
      unfold firstElement
      cases hc : (bucket s i).chain with
      | nil => exact absurd hc hne
      | cons a l => rfl
    refine ⟨i, rfl, by omega, h3, ?_⟩
    unfold «begin»
    rw [if_neg hpos2, hf]
    simp only [hfirst]

theorem count_invariants_witness :
    (∀ i, (bucket (erase (fun k : Nat => k)
        (insertList (fun k : Nat => k) (new 7) [1, 8, 2, 3, 4]) 8).1 i).sz
      = (bucket (erase (fun k : Nat => k)
        (insertList (fun k : Nat => k) (new 7) [1, 8, 2, 3, 4]) 8).1 i).chain.length) ∧
    (erase (fun k : Nat => k) (insertList (fun k : Nat => k) (new 7) [1, 8, 2, 3, 4]) 8).1.sz
      = ((erase (fun k : Nat => k)
        (insertList (fun k : Nat => k) (new 7) [1, 8, 2, 3, 4]) 8).1.table.map
          (fun l => l.sz)).sum ∧
    (∀ n, 1 ≤ n →
      (∀ i, (bucket (rehash (fun k : Nat => k) (erase (fun k : Nat => k)
          (insertList (fun k : Nat => k) (new 7) [1, 8, 2, 3, 4]) 8).1 n) i).sz
        = (bucket (rehash (fun k : Nat => k) (erase (fun k : Nat => k)
          (insertList (fun k : Nat => k) (new 7) [1, 8, 2, 3, 4]) 8).1 n) i).chain.length) ∧
      (rehash (fun k : Nat => k) (erase (fun k : Nat => k)
          (insertList (fun k : Nat => k) (new 7) [1, 8, 2, 3, 4]) 8).1 n).sz
        = ((rehash (fun k : Nat => k) (erase (fun k : Nat => k)
          (insertList (fun k : Nat => k) (new 7) [1, 8, 2, 3, 4]) 8).1 n).table.map
            (fun l => l.sz)).sum) ∧
    (0 < size (erase (fun k : Nat => k)
        (insertList (fun k : Nat => k) (new 7) [1, 8, 2, 3, 4]) 8).1 →
      ∃ i, findNextNonEmptyLinkedList (erase (fun k : Nat => k)
          (insertList (fun k : Nat => k) (new 7) [1, 8, 2, 3, 4]) 8).1 0 = some i ∧
        i < (erase (fun k : Nat => k)
          (insertList (fun k : Nat => k) (new 7) [1, 8, 2, 3, 4]) 8).1.max_sz ∧
        0 < (bucket (erase (fun k : Nat => k)
          (insertList (fun k : Nat => k) (new 7) [1, 8, 2, 3, 4]) 8).1 i).sz ∧
        «begin» (erase (fun k : Nat => k)
          (insertList (fun k : Nat => k) (new 7) [1, 8, 2, 3, 4]) 8).1
          = ⟨some i, some (i, 0)⟩) :=
  count_invariants (fun k : Nat => k) 7 (by decide)
    (erase (fun k : Nat => k) (insertList (fun k : Nat => k) (new 7) [1, 8, 2, 3, 4]) 8).1
    (Reachable.erase 8 (Reachable.insertList [1, 8, 2, 3, 4] Reachable.new))

/-! ## The order of the chains after `rehash` -/

/-- C20 (as stated, refuted): the set built by inserting 1, 8, 15 into capacity 7
holds the chain 15, 8, 1 in bucket 1. `rehash(14)` visits 15, 8, 1; the visited keys
with hash 1 modulo 14 are 15, 1 in that order, but the new chain of bucket 1 is
1, 15. -/
theorem visit_order_reversed_example :
    keys (insertList (fun k : Nat => k) (new 7) [1, 8, 15]) = [15, 8, 1] ∧
    (keys (insertList (fun k : Nat => k) (new 7) [1, 8, 15])).filter
      (fun k => k % 14 = 1) = [15, 1] ∧
    (bucket (rehash (fun k : Nat => k)
      (insertList (fun k : Nat => k) (new 7) [1, 8, 15]) 14) 1).chain = [1, 15] ∧
    (bucket (rehash (fun k : Nat => k)
      (insertList (fun k : Nat => k) (new 7) [1, 8, 15]) 14) 1).chain ≠
      (keys (insertList (fun k : Nat => k) (new 7) [1, 8, 15])).filter
        (fun k => k % 14 = 1) := by
  decide

/-- C20 (amended): `rehash(n)`, `n ≥ 1`, on a table of `max_sz` buckets yields `n`
buckets, capacity `n` and the same `sz`; with the keys visited in bucket index order
and chain order, the chain of every new bucket `j` lists the visited keys with
`hash(key) mod n == j` in the reverse of the order of the visit, and its count is
their number. -/
theorem rehash_order (hasher : Key → Nat) (s : ADS_set Key) (n : Nat)
    (hlen : s.table.length = s.max_sz) (hn : 1 ≤ n) :
    (rehash hasher s n).table.length = n ∧
    (rehash hasher s n).max_sz = n ∧
    (rehash hasher s n).sz = s.sz ∧
    ∀ j, (bucket (rehash hasher s n) j).chain
        = ((keys s).filter (fun k => hasher k % n = j)).reverse ∧
      (bucket (rehash hasher s n) j).sz
        = ((keys s).filter (fun k => hasher k % n = j)).length := by
  refine ⟨?_, rfl, rfl, fun j => ?_⟩
  · rw [rehash_table hasher s n hlen]
    exact (rehashChain_spec hasher n hn (keys s) _ (List.length_replicate _ _)).1
  · rw [bucket_rehash hasher s n hn hlen j]
    exact ⟨rfl, rfl⟩

theorem rehash_order_witness :
    (rehash (fun k : Nat => k) (insertList (fun k : Nat => k) (new 7) [1, 8, 15]) 14).table.length
      = 14 ∧
    (rehash (fun k : Nat => k) (insertList (fun k : Nat => k) (new 7) [1, 8, 15]) 14).max_sz
      = 14 ∧
    (rehash (fun k : Nat => k) (insertList (fun k : Nat => k) (new 7) [1, 8, 15]) 14).sz
      = (insertList (fun k : Nat => k) (new 7) [1, 8, 15]).sz ∧
    ∀ j, (bucket (rehash (fun k : Nat => k)
          (insertList (fun k : Nat => k) (new 7) [1, 8, 15]) 14) j).chain
        = ((keys (insertList (fun k : Nat => k) (new 7) [1, 8, 15])).filter
            (fun k => (fun k : Nat => k) k % 14 = j)).reverse ∧
      (bucket (rehash (fun k : Nat => k)
          (insertList (fun k : Nat => k) (new 7) [1, 8, 15]) 14) j).sz
        = ((keys (insertList (fun k : Nat => k) (new 7) [1, 8, 15])).filter
            (fun k => (fun k : Nat => k) k % 14 = j)).length :=
  rehash_order (fun k : Nat => k) (insertList (fun k : Nat => k) (new 7) [1, 8, 15]) 14
    (by decide) (by decide)

end ADS_set
